import Mathlib

/-!
Verification of the `recursive_crawler` package
(`src/recursive_crawler/recursive_crawler.py`) against its
natural-language specification.

The crawler's pure and stateful logic is shallowly embedded here:

* `_sanitize_url` (filename derivation) is embedded byte-for-byte as
  `quoteBytes` / `stripSchemeStr` / `sanitizeStr`, mirroring Python's
  `urllib.parse.quote(url.split("://", 1)[-1], safe="")`;
* `_get_proxy`, `_get_page`, `_process_url`, `_write_page` and the
  generation loop of `crawl` become explicit state-passing functions over
  `CrawlState`, with the network, the proxy choice, the HTML link
  extractor and the `urljoin` collaborator supplied as oracles in `Env`,
  and the shutdown flag's successive reads supplied as explicit
  observation oracles (the code reads the flag at the top of
  `_process_url`, at the head of every fetch attempt, in `_write_page`
  and at the head of every link-loop iteration);
* the thread pool is modelled by sequential interleaving: every
  read-modify-write the code performs under `urls_lock` or `proxy_lock`
  is one atomic transition of the model.
-/

/-! ## Byte-level filename derivation (`_sanitize_url`)

Python: `quote(url.split("://", 1)[-1], safe="")`.  `quote` encodes the
string as UTF-8 and percent-encodes every byte outside the always-safe
set (ASCII letters, digits, `_`, `.`, `-`, `~`), with uppercase hex. -/

/-- A byte Python's `quote` keeps verbatim with `safe=""`: ASCII letters,
digits, `_` (95), `.` (46), `-` (45), `~` (126). -/
def isSafeByte (b : Nat) : Bool :=
  (65 ≤ b && b ≤ 90) || (97 ≤ b && b ≤ 122) || (48 ≤ b && b ≤ 57) ||
    b == 95 || b == 46 || b == 45 || b == 126

/-- Uppercase hex digit of a nibble, as a byte: `0`..`9` then `A`..`F`. -/
def hexDigitByte (n : Nat) : Nat :=
  if n < 10 then 48 + n else 55 + n

/-- `quote`'s treatment of one byte: kept if safe, else `%` (37) followed
by two uppercase hex digits. -/
def quoteByte (b : Nat) : List Nat :=
  if isSafeByte b then [b] else [37, hexDigitByte (b / 16), hexDigitByte (b % 16)]

/-- `quote(s, safe="")` over a byte string. -/
def quoteBytes : List Nat → List Nat
  | [] => []
  | b :: bs => quoteByte b ++ quoteBytes bs

/-- Value of a hex-digit byte (`0`..`9`, `A`..`F`), if it is one. -/
def fromHexByte (x : Nat) : Option Nat :=
  if 48 ≤ x ∧ x ≤ 57 then some (x - 48)
  else if 65 ≤ x ∧ x ≤ 70 then some (x - 55)
  else none

/-- Decode one `%XX` escape body: two hex digits, then the rest. -/
def unquotePct : List Nat → Option (Nat × List Nat)
  | h :: l :: rest =>
    (fromHexByte h).bind fun hi => (fromHexByte l).map fun lo => (16 * hi + lo, rest)
  | _ => none

/-- Decode one byte of percent-encoded text: a `%XX` escape or a plain byte. -/
def unquoteOne : List Nat → Option (Nat × List Nat)
  | [] => none
  | x :: rest => if x = 37 then unquotePct rest else some (x, rest)

/-- Fuel-bounded percent-decoding loop. -/
def unquoteLoop : Nat → List Nat → Option (List Nat)
  | _, [] => some []
  | 0, _ :: _ => none
  | fuel + 1, x :: rest =>
    (unquoteOne (x :: rest)).bind fun p => (unquoteLoop fuel p.2).map (p.1 :: ·)

/-- Percent-decoding, the inverse direction of `quoteBytes`. -/
def unquoteBytes (l : List Nat) : Option (List Nat) :=
  unquoteLoop l.length l

/-- UTF-8 encoding of one code point (what Python's `str.encode` does to
each character before `quote` percent-encodes the bytes). -/
def utf8EncodeNat (n : Nat) : List Nat :=
  if n < 128 then [n]
  else if n < 2048 then [192 + n / 64, 128 + n % 64]
  else if n < 65536 then [224 + n / 4096, 128 + (n / 64) % 64, 128 + n % 64]
  else [240 + n / 262144, 128 + (n / 4096) % 64, 128 + (n / 64) % 64, 128 + n % 64]

/-- UTF-8 encoding of a list of code points. -/
def utf8Encode : List Nat → List Nat
  | [] => []
  | n :: ns => utf8EncodeNat n ++ utf8Encode ns

/-- Decode the tail of a two-byte UTF-8 sequence with leading byte `b`. -/
def utf8Dec2 (b : Nat) : List Nat → Option (Nat × List Nat)
  | c :: rest =>
    if 128 ≤ c ∧ c < 192 then some ((b - 192) * 64 + (c - 128), rest) else none
  | _ => none

/-- Decode the tail of a three-byte UTF-8 sequence with leading byte `b`. -/
def utf8Dec3 (b : Nat) : List Nat → Option (Nat × List Nat)
  | c :: d :: rest =>
    if (128 ≤ c ∧ c < 192) ∧ (128 ≤ d ∧ d < 192) then
      some ((b - 224) * 4096 + (c - 128) * 64 + (d - 128), rest)
    else none
  | _ => none

/-- Decode the tail of a four-byte UTF-8 sequence with leading byte `b`. -/
def utf8Dec4 (b : Nat) : List Nat → Option (Nat × List Nat)
  | c :: d :: e :: rest =>
    if (128 ≤ c ∧ c < 192) ∧ (128 ≤ d ∧ d < 192) ∧ (128 ≤ e ∧ e < 192) then
      some ((b - 240) * 262144 + (c - 128) * 4096 + (d - 128) * 64 + (e - 128), rest)
    else none
  | _ => none

/-- Decode one UTF-8-encoded code point. -/
def utf8DecodeOne : List Nat → Option (Nat × List Nat)
  | [] => none
  | b :: rest =>
    if b < 128 then some (b, rest)
    else if 192 ≤ b ∧ b < 224 then utf8Dec2 b rest
    else if 224 ≤ b ∧ b < 240 then utf8Dec3 b rest
    else if 240 ≤ b then utf8Dec4 b rest
    else none

/-- Fuel-bounded UTF-8 decoding loop. -/
def utf8DecodeLoop : Nat → List Nat → Option (List Nat)
  | _, [] => some []
  | 0, _ :: _ => none
  | fuel + 1, b :: rest =>
    (utf8DecodeOne (b :: rest)).bind fun p => (utf8DecodeLoop fuel p.2).map (p.1 :: ·)

/-- UTF-8 decoding, the inverse direction of `utf8Encode`. -/
def utf8Decode (l : List Nat) : Option (List Nat) :=
  utf8DecodeLoop l.length l

/-- The characters after the first occurrence of `://`, paired with the
characters before it; `none` when `://` does not occur.  This is the
scanning behaviour of Python's `url.split("://", 1)`. -/
def splitAfterMarker : List Char → Option (List Char × List Char)
  | [] => none
  | ':' :: '/' :: '/' :: rest => some ([], rest)
  | c :: rest => (splitAfterMarker rest).map fun p => (c :: p.1, p.2)

/-- `url.split("://", 1)[-1]`: everything after the first `://`, or the
whole string when there is none. -/
def stripSchemeStr (u : String) : String :=
  match splitAfterMarker u.data with
  | some p => String.mk p.2
  | none => u

/-- `_sanitize_url`: strip the scheme prefix, UTF-8-encode, percent-encode
every byte with `safe=""`. -/
def sanitizeStr (u : String) : String :=
  String.mk ((quoteBytes (utf8Encode ((stripSchemeStr u).data.map Char.toNat))).map Char.ofNat)

/-- Explicit decoder for `sanitizeStr`'s output: percent-decode, then
UTF-8-decode, back to a string. -/
def unsanitizeStr (s : String) : Option String :=
  (unquoteBytes (s.data.map Char.toNat)).bind fun bytes =>
    (utf8Decode bytes).map fun cps => String.mk (cps.map Char.ofNat)

/-! ## Round-trip lemmas for the filename derivation -/

theorem fromHexByte_hexDigitByte (n : Nat) (h : n < 16) :
    fromHexByte (hexDigitByte n) = some n := by
  by_cases h10 : n < 10
  · have e : hexDigitByte n = 48 + n := by unfold hexDigitByte; rw [if_pos h10]
    rw [e]
    unfold fromHexByte
    rw [if_pos (by omega)]
    congr 1
    omega
  · have e : hexDigitByte n = 55 + n := by unfold hexDigitByte; rw [if_neg h10]
    rw [e]
    unfold fromHexByte
    rw [if_neg (by omega), if_pos (by omega)]
    congr 1
    omega

theorem isSafeByte_ne_37 (b : Nat) (h : isSafeByte b = true) : b ≠ 37 := by
  unfold isSafeByte at h
  intro hb
  subst hb
  simp at h

theorem isSafeByte_lt_128 (b : Nat) (h : isSafeByte b = true) : b < 128 := by
  unfold isSafeByte at h
  simp only [Bool.or_eq_true, Bool.and_eq_true, decide_eq_true_eq, beq_iff_eq] at h
  omega

theorem unquoteOne_quoteByte (b : Nat) (hb : b < 256) (rest : List Nat) :
    unquoteOne (quoteByte b ++ rest) = some (b, rest) := by
  unfold quoteByte
  by_cases hs : isSafeByte b = true
  · rw [if_pos hs]
    show unquoteOne (b :: rest) = some (b, rest)
    simp only [unquoteOne]
    rw [if_neg (isSafeByte_ne_37 b hs)]
  · rw [if_neg hs]
    show unquoteOne (37 :: hexDigitByte (b / 16) :: hexDigitByte (b % 16) :: rest) = _
    simp only [unquoteOne]
    rw [if_pos trivial]
    simp only [unquotePct]
    rw [fromHexByte_hexDigitByte (b / 16) (by omega),
        fromHexByte_hexDigitByte (b % 16) (by omega)]
    show some (16 * (b / 16) + b % 16, rest) = some (b, rest)
    congr 1
    rw [Prod.mk.injEq]
    exact ⟨by omega, rfl⟩

theorem quoteByte_ne_nil (b : Nat) : quoteByte b ≠ [] := by
  unfold quoteByte
  split <;> simp

theorem quoteByte_length_pos (b : Nat) : 1 ≤ (quoteByte b).length := by
  unfold quoteByte
  split <;> simp

theorem quoteBytes_length (bs : List Nat) : bs.length ≤ (quoteBytes bs).length := by
  induction bs with
  | nil => simp [quoteBytes]
  | cons b bs ih =>
    rw [quoteBytes, List.length_append, List.length_cons]
    have := quoteByte_length_pos b
    omega

theorem unquoteLoop_nil (fuel : Nat) : unquoteLoop fuel [] = some [] := by
  cases fuel <;> rfl

theorem unquoteLoop_quoteBytes (bs : List Nat) :
    ∀ fuel, bs.length ≤ fuel → (∀ b ∈ bs, b < 256) →
      unquoteLoop fuel (quoteBytes bs) = some bs := by
  induction bs with
  | nil => intro fuel _ _; rw [quoteBytes]; exact unquoteLoop_nil fuel
  | cons b bs ih =>
    intro fuel hfuel hlt
    cases fuel with
    | zero => simp at hfuel
    | succ f =>
      rcases hq : quoteByte b with _ | ⟨y, ys⟩
      · exact absurd hq (quoteByte_ne_nil b)
      · rw [quoteBytes, hq, List.cons_append]
        rw [unquoteLoop]
        rw [← List.cons_append, ← hq,
            unquoteOne_quoteByte b (hlt b (by simp)) (quoteBytes bs)]
        rw [Option.some_bind]
        rw [ih f (by simpa using hfuel) (fun x hx => hlt x (by simp [hx]))]
        rfl

theorem unquoteBytes_quoteBytes (bs : List Nat) (h : ∀ b ∈ bs, b < 256) :
    unquoteBytes (quoteBytes bs) = some bs := by
  unfold unquoteBytes
  exact unquoteLoop_quoteBytes bs (quoteBytes bs).length (quoteBytes_length bs) h

theorem utf8EncodeNat_ne_nil (n : Nat) : utf8EncodeNat n ≠ [] := by
  unfold utf8EncodeNat
  split
  · simp
  · split
    · simp
    · split <;> simp

theorem utf8EncodeNat_length_pos (n : Nat) : 1 ≤ (utf8EncodeNat n).length := by
  unfold utf8EncodeNat
  split
  · simp
  · split
    · simp
    · split <;> simp

theorem utf8EncodeNat_lt_256 (n : Nat) (hn : n < 1114112) :
    ∀ b ∈ utf8EncodeNat n, b < 256 := by
  intro b hb
  unfold utf8EncodeNat at hb
  split at hb
  · simp at hb; omega
  · split at hb
    · simp at hb
      rcases hb with h | h <;> omega
    · split at hb
      · simp at hb
        rcases hb with h | h | h <;> omega
      · simp at hb
        rcases hb with h | h | h | h <;> omega

theorem utf8Encode_length (l : List Nat) : l.length ≤ (utf8Encode l).length := by
  induction l with
  | nil => simp [utf8Encode]
  | cons n ns ih =>
    rw [utf8Encode, List.length_append, List.length_cons]
    have := utf8EncodeNat_length_pos n
    omega

theorem utf8Encode_lt_256 (l : List Nat) (h : ∀ n ∈ l, n < 1114112) :
    ∀ b ∈ utf8Encode l, b < 256 := by
  induction l with
  | nil => intro b hb; simp [utf8Encode] at hb
  | cons n ns ih =>
    intro b hb
    rw [utf8Encode, List.mem_append] at hb
    rcases hb with hb | hb
    · exact utf8EncodeNat_lt_256 n (h n (by simp)) b hb
    · exact ih (fun x hx => h x (by simp [hx])) b hb

set_option maxRecDepth 8000 in
theorem utf8DecodeOne_encode (n : Nat) (hn : n < 1114112) (rest : List Nat) :
    utf8DecodeOne (utf8EncodeNat n ++ rest) = some (n, rest) := by
  unfold utf8EncodeNat
  by_cases h1 : n < 128
  · rw [if_pos h1]
    show utf8DecodeOne (n :: rest) = _
    simp only [utf8DecodeOne]
    rw [if_pos h1]
  · rw [if_neg h1]
    by_cases h2 : n < 2048
    · rw [if_pos h2]
      show utf8DecodeOne ((192 + n / 64) :: (128 + n % 64) :: rest) = _
      simp only [utf8DecodeOne]
      rw [if_neg (by omega), if_pos (by omega)]
      simp only [utf8Dec2]
      have hc2 : 128 ≤ 128 + n % 64 ∧ 128 + n % 64 < 192 := by omega
      rw [if_pos hc2]
      congr 1
      rw [Prod.mk.injEq]
      exact ⟨by omega, rfl⟩
    · rw [if_neg h2]
      by_cases h3 : n < 65536
      · rw [if_pos h3]
        show utf8DecodeOne ((224 + n / 4096) :: (128 + n / 64 % 64) :: (128 + n % 64) :: rest) = _
        simp only [utf8DecodeOne]
        rw [if_neg (by omega), if_neg (by omega), if_pos (by omega)]
        simp only [utf8Dec3]
        have hc3 : (128 ≤ 128 + n / 64 % 64 ∧ 128 + n / 64 % 64 < 192) ∧
            (128 ≤ 128 + n % 64 ∧ 128 + n % 64 < 192) := by omega
        rw [if_pos hc3]
        congr 1
        rw [Prod.mk.injEq]
        exact ⟨by omega, rfl⟩
      · rw [if_neg h3]
        show utf8DecodeOne ((240 + n / 262144) :: (128 + n / 4096 % 64) :: (128 + n / 64 % 64) :: (128 + n % 64) :: rest) = _
        simp only [utf8DecodeOne]
        rw [if_neg (by omega), if_neg (by omega), if_neg (by omega), if_pos (by omega)]
        simp only [utf8Dec4]
        have hc4 : (128 ≤ 128 + n / 4096 % 64 ∧ 128 + n / 4096 % 64 < 192) ∧
            (128 ≤ 128 + n / 64 % 64 ∧ 128 + n / 64 % 64 < 192) ∧
            (128 ≤ 128 + n % 64 ∧ 128 + n % 64 < 192) := by omega
        rw [if_pos hc4]
        congr 1
        rw [Prod.mk.injEq]
        exact ⟨by omega, rfl⟩

theorem utf8DecodeLoop_nil (fuel : Nat) : utf8DecodeLoop fuel [] = some [] := by
  cases fuel <;> rfl

theorem utf8DecodeLoop_encode (l : List Nat) :
    ∀ fuel, l.length ≤ fuel → (∀ n ∈ l, n < 1114112) →
      utf8DecodeLoop fuel (utf8Encode l) = some l := by
  induction l with
  | nil => intro fuel _ _; rw [utf8Encode]; exact utf8DecodeLoop_nil fuel
  | cons n ns ih =>
    intro fuel hfuel hlt
    cases fuel with
    | zero => simp at hfuel
    | succ f =>
      rcases hq : utf8EncodeNat n with _ | ⟨y, ys⟩
      · exact absurd hq (utf8EncodeNat_ne_nil n)
      · rw [utf8Encode, hq, List.cons_append]
        rw [utf8DecodeLoop]
        rw [← List.cons_append, ← hq,
            utf8DecodeOne_encode n (hlt n (by simp)) (utf8Encode ns)]
        rw [Option.some_bind]
        rw [ih f (by simpa using hfuel) (fun x hx => hlt x (by simp [hx]))]
        rfl

theorem utf8Decode_utf8Encode (l : List Nat) (h : ∀ n ∈ l, n < 1114112) :
    utf8Decode (utf8Encode l) = some l := by
  unfold utf8Decode
  exact utf8DecodeLoop_encode l (utf8Encode l).length (utf8Encode_length l) h

theorem char_toNat_lt (c : Char) : c.toNat < 1114112 := by
  rcases c.valid with h | ⟨_, h⟩
  · exact Nat.lt_trans h (by decide)
  · exact h

theorem char_toNat_ofNat_small (x : Nat) (h : x < 55296) : (Char.ofNat x).toNat = x := by
  unfold Char.ofNat
  rw [dif_pos (Or.inl h)]
  rfl

theorem quoteByte_lt_128 (b : Nat) (hb : b < 256) : ∀ x ∈ quoteByte b, x < 128 := by
  intro x hx
  unfold quoteByte at hx
  by_cases hs : isSafeByte b = true
  · rw [if_pos hs] at hx
    rw [List.mem_singleton] at hx
    rw [hx]
    exact isSafeByte_lt_128 b hs
  · rw [if_neg hs] at hx
    have h1 : hexDigitByte (b / 16) < 128 := by unfold hexDigitByte; split <;> omega
    have h2 : hexDigitByte (b % 16) < 128 := by unfold hexDigitByte; split <;> omega
    simp only [List.mem_cons, List.not_mem_nil, or_false] at hx
    rcases hx with h | h | h
    · omega
    · subst h; exact h1
    · subst h; exact h2

theorem quoteBytes_lt_128 (bs : List Nat) (hbs : ∀ b ∈ bs, b < 256) :
    ∀ x ∈ quoteBytes bs, x < 128 := by
  induction bs with
  | nil => intro x hx; simp [quoteBytes] at hx
  | cons b bs ih =>
    intro x hx
    rw [quoteBytes, List.mem_append] at hx
    rcases hx with hx | hx
    · exact quoteByte_lt_128 b (hbs b (by simp)) x hx
    · exact ih (fun y hy => hbs y (by simp [hy])) x hx

theorem map_toNat_map_ofNat (l : List Nat) (h : ∀ x ∈ l, x < 55296) :
    (l.map Char.ofNat).map Char.toNat = l := by
  induction l with
  | nil => rfl
  | cons x xs ih =>
    simp only [List.map_cons, List.cons.injEq]
    exact ⟨char_toNat_ofNat_small x (h x (by simp)),
           ih (fun y hy => h y (by simp [hy]))⟩

theorem string_mk_data (s : String) : String.mk s.data = s := rfl

/-- Round trip: the derived filename decodes back to the scheme-stripped
remainder of the URL. -/
theorem unsanitize_sanitize (u : String) :
    unsanitizeStr (sanitizeStr u) = some (stripSchemeStr u) := by
  unfold sanitizeStr unsanitizeStr
  have hcps : ∀ n ∈ (stripSchemeStr u).data.map Char.toNat, n < 1114112 := by
    intro n hn
    rw [List.mem_map] at hn
    rcases hn with ⟨c, _, rfl⟩
    exact char_toNat_lt c
  have hbytes : ∀ b ∈ utf8Encode ((stripSchemeStr u).data.map Char.toNat), b < 256 :=
    utf8Encode_lt_256 _ hcps
  have hq : ∀ x ∈ quoteBytes (utf8Encode ((stripSchemeStr u).data.map Char.toNat)),
      x < 55296 := by
    intro x hx
    have := quoteBytes_lt_128 _ hbytes x hx
    omega
  show (unquoteBytes (((quoteBytes _).map Char.ofNat).map Char.toNat)).bind _ = _
  rw [map_toNat_map_ofNat _ hq]
  rw [unquoteBytes_quoteBytes _ hbytes, Option.some_bind]
  rw [utf8Decode_utf8Encode _ hcps]
  simp only [Option.map_some']
  congr 1
  rw [List.map_map]
  have he : (Char.ofNat ∘ Char.toNat) = id := by
    funext c
    simp [Function.comp, Char.ofNat_toNat]
  rw [he, List.map_id]

/-! ## String helpers for the crawler model

`strStartsWith` mirrors Python's `str.startswith`; `strContainsHttp`
mirrors the membership test `'http' in link` (case-sensitive substring
containment anywhere in the string). -/

/-- `charsLeadWith pat l`: `pat` is a prefix of `l`. -/
def charsLeadWith : List Char → List Char → Bool
  | [], _ => true
  | _ :: _, [] => false
  | p :: ps, c :: cs => p == c && charsLeadWith ps cs

/-- `charsContain pat l`: `pat` occurs contiguously somewhere in `l`. -/
def charsContain (pat : List Char) : List Char → Bool
  | [] => charsLeadWith pat []
  | c :: cs => charsLeadWith pat (c :: cs) || charsContain pat cs

/-- Python `s.startswith(p)`. -/
def strStartsWith (s p : String) : Bool :=
  charsLeadWith p.data s.data

/-- Python `'http' in s`. -/
def strContainsHttp (s : String) : Bool :=
  charsContain "http".data s.data

/-! ## The crawler's data model

`Config` holds the run's immutable configuration (`start_url`,
`max_retries`, and the startup snapshot `existing_files` that
`_get_existing_files` takes of the output directory).  `CrawlState` is the
shared mutable state (`crawled_urls`, `pending_urls`, the trusted
`proxies` and the `invalid_proxies` sets, and the log of files written
this run).  Sets are modelled as lists; the guarded read-modify-write
blocks of the code are single transitions here. -/

/-- Outcome of one HTTP GET attempt as `_get_page`'s try block sees it:
a 200 response with its body text, a non-200 status, or a raised
transport/connection exception. -/
inductive AttemptOutcome where
  | success (body : String)
  | httpError (status : Nat)
  | transportError
deriving DecidableEq

/-- Immutable per-run configuration. -/
structure Config where
  start_url : String
  existing_files : List String
  max_retries : Nat

/-- Shared mutable crawler state. -/
structure CrawlState where
  crawled_urls : List String
  pending_urls : List String
  proxies : List String
  invalid_proxies : List String
  files : List (String × String)
deriving DecidableEq

/-- The shutdown flag's reads during one `_process_url` call: at the top
of the task, before each fetch attempt, in `_write_page`, and before each
link-loop iteration. -/
structure Obs where
  atStart : Bool
  atFetch : Nat → Bool
  atWrite : Bool
  atLink : Nat → Bool

/-- External collaborators and nondeterminism, supplied as oracles: the
HTTP transport (`net url attempt proxy`), `random.choice`'s pick
(`choose url attempt`, an index into the trusted list), BeautifulSoup's
href extraction (`hrefs`), `urllib.parse.urljoin` (`join`), the shutdown
observations per generation and URL (`obs`), and the generation loop's
shutdown reads (`sdGen`). -/
structure Env where
  net : String → Nat → Option String → AttemptOutcome
  choose : String → Nat → Nat
  hrefs : String → List String
  join : String → String → String
  obs : Nat → String → Obs
  sdGen : Nat → Bool

/-- State at crawler start: empty crawled/pending sets, the loaded proxy
list trusted, no proxies invalid, nothing written. -/
def initialState (proxies : List String) : CrawlState :=
  ⟨[], [], proxies, [], []⟩

/-! ## `_get_proxy` and proxy invalidation -/

/-- `_get_proxy`: `None` when the trusted set is empty, otherwise the
random choice (modelled as an oracle index into the list). -/
def getProxy (proxies : List String) (choice : Nat) : Option String :=
  proxies[choice % proxies.length]?

/-- The `except` branch's proxy removal under `proxy_lock`:
`invalid_proxies.add(proxy)` and `proxies.discard(proxy)`. -/
def addProxyInvalid (p : String) (st : CrawlState) : CrawlState :=
  { st with
    invalid_proxies :=
      if p ∈ st.invalid_proxies then st.invalid_proxies else p :: st.invalid_proxies,
    proxies := st.proxies.filter (fun q => q ≠ p) }

/-- `if proxy:` guard around the removal. -/
def dropFailedProxy : Option String → CrawlState → CrawlState
  | none, st => st
  | some p, st => addProxyInvalid p st

/-! ## `_get_page` -/

/-- One iteration's outcome handling in `_get_page`: HTTP 200 returns the
body at once; any other status returns `none` at once; a transport
exception returns `none` when `attempt == max_retries`, and otherwise
removes the failed proxy (if one was used) and continues with the next
attempt (`rec`).  The third component logs the attempt indices at which a
GET was actually issued. -/
def getPageStep (outcome : AttemptOutcome) (attempt : Nat) (isLast : Bool)
    (proxy : Option String) (st : CrawlState)
    (rec : CrawlState → Option String × CrawlState × List Nat) :
    Option String × CrawlState × List Nat :=
  match outcome with
  | AttemptOutcome.success body => (some body, st, [attempt])
  | AttemptOutcome.httpError _ => (none, st, [attempt])
  | AttemptOutcome.transportError =>
    if isLast then (none, st, [attempt])
    else
      let r := rec (dropFailedProxy proxy st)
      (r.1, r.2.1, attempt :: r.2.2)

/-- The `for attempt in range(max_retries + 1)` loop of `_get_page`:
`fuel` counts the remaining iterations, `attempt` the current index.  The
shutdown flag is read at the head of every iteration; when it is set the
function returns `none` without issuing the GET. -/
def getPageAux (env : Env) (url : String) (maxRetries : Nat) (sd : Nat → Bool) :
    Nat → Nat → CrawlState → Option String × CrawlState × List Nat
  | 0, _, st => (none, st, [])
  | fuel + 1, attempt, st =>
    if sd attempt then (none, st, [])
    else
      let proxy := getProxy st.proxies (env.choose url attempt)
      getPageStep (env.net url attempt proxy) attempt (attempt == maxRetries) proxy st
        (fun st2 => getPageAux env url maxRetries sd fuel (attempt + 1) st2)

/-- `_get_page(url)`: up to `max_retries + 1` sequential attempts starting
at attempt 0. -/
def getPage (env : Env) (cfg : Config) (sd : Nat → Bool) (url : String)
    (st : CrawlState) : Option String × CrawlState × List Nat :=
  getPageAux env url cfg.max_retries sd (cfg.max_retries + 1) 0 st

/-! ## `_process_url` -/

/-- The check-and-mark step of `_process_url`, executed as one critical
section under `urls_lock`: refuse when the URL is already in
`crawled_urls` or its sanitized name is in the startup `existing_files`
snapshot; otherwise add it to `crawled_urls` and grant the claim. -/
def claimUrl (cfg : Config) (url : String) (st : CrawlState) : Bool × CrawlState :=
  if url ∈ st.crawled_urls ∨ sanitizeStr url ∈ cfg.existing_files then (false, st)
  else (true, { st with crawled_urls := url :: st.crawled_urls })

/-- `_write_page`: returns without writing when the shutdown flag is set
at its head; otherwise appends the (filename, content) write. -/
def writePage (sdAtWrite : Bool) (filename content : String) (st : CrawlState) :
    CrawlState :=
  if sdAtWrite then st
  else { st with files := st.files ++ [(filename, content)] }

/-- The link-to-absolute-URL step of `_process_url`'s link loop:
`if 'http' not in link: absolute_url = urljoin(url, link)
else: absolute_url = link`. -/
def resolveLink (join : String → String → String) (base link : String) : String :=
  if strContainsHttp link then link else join base link

/-- The `for link in links` loop of `_process_url`, run under `urls_lock`:
break on shutdown; resolve the href; skip URLs that do not start with
`start_url`; of the rest, add to `pending_urls` and to the returned delta
exactly those in neither `crawled_urls` nor `pending_urls`. -/
def discoverLinks (env : Env) (cfg : Config) (sd : Nat → Bool) (base : String) :
    List String → Nat → CrawlState → List String → CrawlState × List String
  | [], _, st, acc => (st, acc)
  | link :: rest, i, st, acc =>
    if sd i then (st, acc)
    else
      if strStartsWith (resolveLink env.join base link) cfg.start_url then
        if resolveLink env.join base link ∈ st.crawled_urls ∨
            resolveLink env.join base link ∈ st.pending_urls then
          discoverLinks env cfg sd base rest (i + 1) st acc
        else
          discoverLinks env cfg sd base rest (i + 1)
            { st with pending_urls := resolveLink env.join base link :: st.pending_urls }
            (acc ++ [resolveLink env.join base link])
      else discoverLinks env cfg sd base rest (i + 1) st acc

/-- The post-fetch half of `_process_url`: Python's `if not page` treats
both a failed fetch and an empty 200 body as failure; on success the page
is written (unless shutdown intervened) and its links are discovered. -/
def handlePage (env : Env) (cfg : Config) (ob : Obs) (url : String)
    (fetched : Option String × CrawlState × List Nat) :
    CrawlState × List String × List (String × List Nat) :=
  match fetched.1 with
  | none => (fetched.2.1, [], [(url, fetched.2.2)])
  | some page =>
    if page = "" then (fetched.2.1, [], [(url, fetched.2.2)])
    else
      let st3 := writePage ob.atWrite (sanitizeStr url) page fetched.2.1
      let d := discoverLinks env cfg ob.atLink url (env.hrefs page) 0 st3 []
      (d.1, d.2, [(url, fetched.2.2)])

/-- `_process_url(url)`: returns the updated state, the set of new URLs
for the next generation, and the log of `_get_page` calls it made (each
with the attempt indices that issued a GET). -/
def processUrl (env : Env) (cfg : Config) (ob : Obs) (url : String) (st : CrawlState) :
    CrawlState × List String × List (String × List Nat) :=
  if ob.atStart then (st, [], [])
  else if (claimUrl cfg url st).1 = false then ((claimUrl cfg url st).2, [], [])
  else handlePage env cfg ob url (getPage env cfg ob.atFetch url (claimUrl cfg url st).2)

/-! ## The generation loop of `crawl` -/

/-- One generation: the worker tasks of a batch, interleaved sequentially
(every lock-guarded block in the code is one atomic transition here). -/
def processBatch (env : Env) (cfg : Config) (gen : Nat) :
    List String → CrawlState → CrawlState × List String × List (String × List Nat)
  | [], st => (st, [], [])
  | url :: rest, st =>
    let r := processUrl env cfg (env.obs gen url) url st
    let rr := processBatch env cfg gen rest r.1
    (rr.1, r.2.1 ++ rr.2.1, r.2.2 ++ rr.2.2)

/-- `while urls_to_process and not self.shutdown_event.is_set()`: the
level-synchronous generation loop, with `fuel` bounding the number of
generations considered. -/
def crawlLoop (env : Env) (cfg : Config) :
    Nat → Nat → List String → CrawlState → CrawlState × List (String × List Nat)
  | 0, _, _, st => (st, [])
  | fuel + 1, gen, frontier, st =>
    if frontier.isEmpty || env.sdGen gen then (st, [])
    else
      let b := processBatch env cfg gen frontier st
      let r := crawlLoop env cfg fuel (gen + 1) b.2.1 b.1
      (r.1, b.2.2 ++ r.2)

/-- `crawl()`: start from `{start_url}` on the freshly initialized state. -/
def runCrawler (env : Env) (cfg : Config) (proxies : List String) (fuel : Nat) :
    CrawlState × List (String × List Nat) :=
  crawlLoop env cfg fuel 0 [cfg.start_url] (initialState proxies)

/-! ## Spec-side definitions for claim comparison -/

/-- Modelled from the spec: "contains a scheme marker (looks absolute)" —
the href contains `://`. -/
def specHasSchemeMarker (s : String) : Bool :=
  (splitAfterMarker s.data).isSome

/-- The part of a URL string up to and including its last `/`. -/
def upToLastSlash (l : List Char) : List Char :=
  (l.reverse.dropWhile (fun c => c ≠ '/')).reverse

/-- Modelled from the spec: "standard base+relative URL resolution rules"
(the external `urllib.parse.urljoin` collaborator), for the reference
shapes the claims exercise: an href with a scheme marker stands alone; an
absolute-path href replaces the base's path; any other relative href is
appended after the base's last `/`. -/
def specUrljoin (base ref : String) : String :=
  if specHasSchemeMarker ref then ref
  else
    match splitAfterMarker base.data with
    | some p =>
      match ref.data with
      | '/' :: _ =>
        String.mk (p.1 ++ ':' :: '/' :: '/' :: p.2.takeWhile (fun c => c ≠ '/')) ++ ref
      | _ => String.mk (p.1 ++ ':' :: '/' :: '/' :: upToLastSlash p.2) ++ ref
    | none => String.mk (upToLastSlash base.data) ++ ref

/-! ## Lemmas: `_get_proxy` and proxy invalidation -/

theorem getProxy_eq_none_iff (ps : List String) (c : Nat) :
    getProxy ps c = none ↔ ps = [] := by
  unfold getProxy
  constructor
  · intro h
    cases ps with
    | nil => rfl
    | cons a as =>
      exfalso
      have hlt : c % (a :: as).length < (a :: as).length :=
        Nat.mod_lt _ (by simp)
      rw [List.getElem?_eq_getElem hlt] at h
      simp at h
  · intro h
    subst h
    rfl

theorem getProxy_mem (ps : List String) (c : Nat) (p : String)
    (h : getProxy ps c = some p) : p ∈ ps := by
  unfold getProxy at h
  exact List.getElem?_mem h

theorem addProxyInvalid_disjoint (p : String) (st : CrawlState)
    (h : ∀ x ∈ st.proxies, x ∉ st.invalid_proxies) :
    ∀ x ∈ (addProxyInvalid p st).proxies, x ∉ (addProxyInvalid p st).invalid_proxies := by
  intro x hx
  simp only [addProxyInvalid, List.mem_filter, decide_eq_true_eq] at hx ⊢
  obtain ⟨hxp, hxne⟩ := hx
  by_cases hp : p ∈ st.invalid_proxies
  · rw [if_pos hp]
    exact h x hxp
  · rw [if_neg hp]
    intro hmem
    rcases List.mem_cons.mp hmem with he | hi
    · exact hxne he
    · exact h x hxp hi

theorem dropFailedProxy_disjoint (pr : Option String) (st : CrawlState)
    (h : ∀ x ∈ st.proxies, x ∉ st.invalid_proxies) :
    ∀ x ∈ (dropFailedProxy pr st).proxies, x ∉ (dropFailedProxy pr st).invalid_proxies := by
  cases pr with
  | none => exact h
  | some p => exact addProxyInvalid_disjoint p st h

theorem dropFailedProxy_frame (pr : Option String) (st : CrawlState) :
    (dropFailedProxy pr st).crawled_urls = st.crawled_urls ∧
    (dropFailedProxy pr st).pending_urls = st.pending_urls ∧
    (dropFailedProxy pr st).files = st.files := by
  cases pr with
  | none => exact ⟨rfl, rfl, rfl⟩
  | some p => exact ⟨rfl, rfl, rfl⟩

/-! ## Lemmas: `_get_page` -/

theorem getPageAux_frame (env : Env) (url : String) (m : Nat) (sd : Nat → Bool) :
    ∀ fuel attempt st,
      (getPageAux env url m sd fuel attempt st).2.1.crawled_urls = st.crawled_urls ∧
      (getPageAux env url m sd fuel attempt st).2.1.pending_urls = st.pending_urls ∧
      (getPageAux env url m sd fuel attempt st).2.1.files = st.files := by
  intro fuel
  induction fuel with
  | zero => intro attempt st; exact ⟨rfl, rfl, rfl⟩
  | succ f ih =>
    intro attempt st
    simp only [getPageAux]
    by_cases hsd : sd attempt = true
    · rw [if_pos hsd]
      exact ⟨rfl, rfl, rfl⟩
    · rw [if_neg hsd]
      simp only [getPageStep]
      cases env.net url attempt (getProxy st.proxies (env.choose url attempt)) with
      | success body => exact ⟨rfl, rfl, rfl⟩
      | httpError s => exact ⟨rfl, rfl, rfl⟩
      | transportError =>
        by_cases hl : (attempt == m) = true
        · rw [if_pos hl]
          exact ⟨rfl, rfl, rfl⟩
        · rw [if_neg hl]
          obtain ⟨h1, h2, h3⟩ :=
            ih (attempt + 1)
              (dropFailedProxy (getProxy st.proxies (env.choose url attempt)) st)
          obtain ⟨d1, d2, d3⟩ :=
            dropFailedProxy_frame (getProxy st.proxies (env.choose url attempt)) st
          exact ⟨h1.trans d1, h2.trans d2, h3.trans d3⟩

theorem getPageAux_disjoint (env : Env) (url : String) (m : Nat) (sd : Nat → Bool) :
    ∀ fuel attempt st,
      (∀ x ∈ st.proxies, x ∉ st.invalid_proxies) →
      ∀ x ∈ (getPageAux env url m sd fuel attempt st).2.1.proxies,
        x ∉ (getPageAux env url m sd fuel attempt st).2.1.invalid_proxies := by
  intro fuel
  induction fuel with
  | zero => intro attempt st h; exact h
  | succ f ih =>
    intro attempt st h
    simp only [getPageAux]
    by_cases hsd : sd attempt = true
    · rw [if_pos hsd]
      exact h
    · rw [if_neg hsd]
      simp only [getPageStep]
      cases env.net url attempt (getProxy st.proxies (env.choose url attempt)) with
      | success body => exact h
      | httpError s => exact h
      | transportError =>
        by_cases hl : (attempt == m) = true
        · rw [if_pos hl]
          exact h
        · rw [if_neg hl]
          exact ih (attempt + 1) _
            (dropFailedProxy_disjoint (getProxy st.proxies (env.choose url attempt)) st h)

theorem getPageAux_len (env : Env) (url : String) (m : Nat) (sd : Nat → Bool) :
    ∀ fuel attempt st,
      (getPageAux env url m sd fuel attempt st).2.2.length ≤ fuel := by
  intro fuel
  induction fuel with
  | zero => intro attempt st; simp [getPageAux]
  | succ f ih =>
    intro attempt st
    simp only [getPageAux]
    by_cases hsd : sd attempt = true
    · rw [if_pos hsd]
      simp
    · rw [if_neg hsd]
      simp only [getPageStep]
      cases env.net url attempt (getProxy st.proxies (env.choose url attempt)) with
      | success body => simp
      | httpError s => simp
      | transportError =>
        by_cases hl : (attempt == m) = true
        · rw [if_pos hl]
          simp
        · rw [if_neg hl]
          have := ih (attempt + 1)
            (dropFailedProxy (getProxy st.proxies (env.choose url attempt)) st)
          simp only [List.length_cons]
          omega

theorem getPageAux_sd_false (env : Env) (url : String) (m : Nat) (sd : Nat → Bool) :
    ∀ fuel attempt st,
      ∀ i ∈ (getPageAux env url m sd fuel attempt st).2.2, sd i = false := by
  intro fuel
  induction fuel with
  | zero => intro attempt st i hi; simp [getPageAux] at hi
  | succ f ih =>
    intro attempt st i hi
    simp only [getPageAux] at hi
    by_cases hsd : sd attempt = true
    · rw [if_pos hsd] at hi
      simp at hi
    · rw [if_neg hsd] at hi
      simp only [getPageStep] at hi
      cases hnet : env.net url attempt (getProxy st.proxies (env.choose url attempt)) with
      | success body =>
        rw [hnet] at hi
        simp at hi
        subst hi
        exact Bool.eq_false_iff.mpr hsd
      | httpError s =>
        rw [hnet] at hi
        simp at hi
        subst hi
        exact Bool.eq_false_iff.mpr hsd
      | transportError =>
        rw [hnet] at hi
        by_cases hl : (attempt == m) = true
        · rw [if_pos hl] at hi
          simp at hi
          subst hi
          exact Bool.eq_false_iff.mpr hsd
        · rw [if_neg hl] at hi
          simp only [List.mem_cons] at hi
          rcases hi with hi | hi
          · subst hi
            exact Bool.eq_false_iff.mpr hsd
          · exact ih (attempt + 1) _ i hi

theorem getPageAux_allTransport (env : Env) (url : String) (m : Nat) (sd : Nat → Bool)
    (hsd : ∀ i, sd i = false)
    (hnet : ∀ i pr, env.net url i pr = AttemptOutcome.transportError) :
    ∀ fuel attempt st, attempt + fuel = m + 1 →
      (getPageAux env url m sd fuel attempt st).1 = none ∧
      (getPageAux env url m sd fuel attempt st).2.2.length = fuel := by
  intro fuel
  induction fuel with
  | zero => intro attempt st _; exact ⟨rfl, rfl⟩
  | succ f ih =>
    intro attempt st hsum
    simp only [getPageAux]
    rw [if_neg (by rw [hsd attempt]; exact Bool.false_ne_true)]
    simp only [getPageStep, hnet]
    cases f with
    | zero =>
      have : attempt = m := by omega
      rw [if_pos (by rw [this]; exact beq_self_eq_true m)]
      exact ⟨rfl, rfl⟩
    | succ f2 =>
      have hne : attempt ≠ m := by omega
      rw [if_neg (by simpa using hne)]
      obtain ⟨h1, h2⟩ := ih (attempt + 1)
        (dropFailedProxy (getProxy st.proxies (env.choose url attempt)) st)
        (by omega)
      refine ⟨h1, ?_⟩
      simp only [List.length_cons]
      omega

/-! ## Lemmas: the claim step -/

theorem claimUrl_true_iff (cfg : Config) (url : String) (st : CrawlState) :
    (claimUrl cfg url st).1 = true ↔
      url ∉ st.crawled_urls ∧ sanitizeStr url ∉ cfg.existing_files := by
  unfold claimUrl
  by_cases h : url ∈ st.crawled_urls ∨ sanitizeStr url ∈ cfg.existing_files
  · rw [if_pos h]
    simp only [Bool.false_eq_true, false_iff]
    tauto
  · rw [if_neg h]
    simp only [true_iff]
    tauto

theorem claimUrl_false_state (cfg : Config) (url : String) (st : CrawlState)
    (h : (claimUrl cfg url st).1 = false) : (claimUrl cfg url st).2 = st := by
  unfold claimUrl at h ⊢
  by_cases hc : url ∈ st.crawled_urls ∨ sanitizeStr url ∈ cfg.existing_files
  · rw [if_pos hc]
  · rw [if_neg hc] at h
    simp at h

theorem claimUrl_true_state (cfg : Config) (url : String) (st : CrawlState)
    (h : (claimUrl cfg url st).1 = true) :
    (claimUrl cfg url st).2 = { st with crawled_urls := url :: st.crawled_urls } := by
  unfold claimUrl at h ⊢
  by_cases hc : url ∈ st.crawled_urls ∨ sanitizeStr url ∈ cfg.existing_files
  · rw [if_pos hc] at h
    simp at h
  · rw [if_neg hc]

theorem claimUrl_again_false (cfg : Config) (url : String) (st : CrawlState) :
    (claimUrl cfg url ((claimUrl cfg url st).2)).1 = false := by
  by_cases h : (claimUrl cfg url st).1 = true
  · rw [claimUrl_true_state cfg url st h]
    unfold claimUrl
    rw [if_pos (Or.inl (by simp))]
  · rw [claimUrl_false_state cfg url st (by simpa using h)]
    unfold claimUrl at h ⊢
    by_cases hc : url ∈ st.crawled_urls ∨ sanitizeStr url ∈ cfg.existing_files
    · rw [if_pos hc]
    · rw [if_neg hc] at h
      simp at h

/-! ## Lemmas: the link-discovery loop -/

theorem discoverLinks_frame (env : Env) (cfg : Config) (sd : Nat → Bool) (base : String) :
    ∀ links i st acc,
      (discoverLinks env cfg sd base links i st acc).1.crawled_urls = st.crawled_urls ∧
      (discoverLinks env cfg sd base links i st acc).1.proxies = st.proxies ∧
      (discoverLinks env cfg sd base links i st acc).1.invalid_proxies = st.invalid_proxies ∧
      (discoverLinks env cfg sd base links i st acc).1.files = st.files := by
  intro links
  induction links with
  | nil => intro i st acc; exact ⟨rfl, rfl, rfl, rfl⟩
  | cons link rest ih =>
    intro i st acc
    simp only [discoverLinks]
    by_cases hsd : sd i = true
    · rw [if_pos hsd]
      exact ⟨rfl, rfl, rfl, rfl⟩
    · rw [if_neg hsd]
      by_cases hpre : strStartsWith (resolveLink env.join base link) cfg.start_url = true
      · rw [if_pos hpre]
        by_cases hmem : resolveLink env.join base link ∈ st.crawled_urls ∨
            resolveLink env.join base link ∈ st.pending_urls
        · rw [if_pos hmem]
          exact ih (i + 1) st acc
        · rw [if_neg hmem]
          exact ih (i + 1) _ _
      · rw [if_neg hpre]
        exact ih (i + 1) st acc

theorem discoverLinks_pending_mono (env : Env) (cfg : Config) (sd : Nat → Bool)
    (base : String) :
    ∀ links i st acc, ∀ x ∈ st.pending_urls,
      x ∈ (discoverLinks env cfg sd base links i st acc).1.pending_urls := by
  intro links
  induction links with
  | nil => intro i st acc x hx; exact hx
  | cons link rest ih =>
    intro i st acc x hx
    simp only [discoverLinks]
    by_cases hsd : sd i = true
    · rw [if_pos hsd]
      exact hx
    · rw [if_neg hsd]
      by_cases hpre : strStartsWith (resolveLink env.join base link) cfg.start_url = true
      · rw [if_pos hpre]
        by_cases hmem : resolveLink env.join base link ∈ st.crawled_urls ∨
            resolveLink env.join base link ∈ st.pending_urls
        · rw [if_pos hmem]
          exact ih (i + 1) st acc x hx
        · rw [if_neg hmem]
          exact ih (i + 1) _ _ x (List.mem_cons_of_mem _ hx)
      · rw [if_neg hpre]
        exact ih (i + 1) st acc x hx

theorem discoverLinks_pending_new (env : Env) (cfg : Config) (sd : Nat → Bool)
    (base : String) :
    ∀ links i st acc, ∀ a ∈ (discoverLinks env cfg sd base links i st acc).1.pending_urls,
      a ∈ st.pending_urls ∨ strStartsWith a cfg.start_url = true := by
  intro links
  induction links with
  | nil => intro i st acc a ha; exact Or.inl ha
  | cons link rest ih =>
    intro i st acc a ha
    simp only [discoverLinks] at ha
    by_cases hsd : sd i = true
    · rw [if_pos hsd] at ha
      exact Or.inl ha
    · rw [if_neg hsd] at ha
      by_cases hpre : strStartsWith (resolveLink env.join base link) cfg.start_url = true
      · rw [if_pos hpre] at ha
        by_cases hmem : resolveLink env.join base link ∈ st.crawled_urls ∨
            resolveLink env.join base link ∈ st.pending_urls
        · rw [if_pos hmem] at ha
          exact ih (i + 1) st acc a ha
        · rw [if_neg hmem] at ha
          rcases ih (i + 1) _ _ a ha with hp | hp
          · rcases List.mem_cons.mp hp with he | hp2
            · subst he
              exact Or.inr hpre
            · exact Or.inl hp2
          · exact Or.inr hp
      · rw [if_neg hpre] at ha
        exact ih (i + 1) st acc a ha

theorem discoverLinks_delta (env : Env) (cfg : Config) (sd : Nat → Bool) (base : String) :
    ∀ links i st acc, ∀ a ∈ (discoverLinks env cfg sd base links i st acc).2,
      a ∈ acc ∨
        (a ∉ st.crawled_urls ∧ a ∉ st.pending_urls ∧
         strStartsWith a cfg.start_url = true ∧
         a ∈ (discoverLinks env cfg sd base links i st acc).1.pending_urls) := by
  intro links
  induction links with
  | nil => intro i st acc a ha; exact Or.inl ha
  | cons link rest ih =>
    intro i st acc a ha
    simp only [discoverLinks] at ha ⊢
    by_cases hsd : sd i = true
    · rw [if_pos hsd] at ha ⊢
      exact Or.inl ha
    · rw [if_neg hsd] at ha ⊢
      by_cases hpre : strStartsWith (resolveLink env.join base link) cfg.start_url = true
      · rw [if_pos hpre] at ha ⊢
        by_cases hmem : resolveLink env.join base link ∈ st.crawled_urls ∨
            resolveLink env.join base link ∈ st.pending_urls
        · rw [if_pos hmem] at ha ⊢
          exact ih (i + 1) st acc a ha
        · rw [if_neg hmem] at ha ⊢
          rcases ih (i + 1) _ _ a ha with hacc | ⟨h1, h2, h3, h4⟩
          · rcases List.mem_append.mp hacc with h | h
            · exact Or.inl h
            · rw [List.mem_singleton] at h
              subst h
              refine Or.inr ⟨fun hc => hmem (Or.inl hc), fun hp => hmem (Or.inr hp), hpre, ?_⟩
              exact discoverLinks_pending_mono env cfg sd base rest (i + 1) _ _ _
                (List.mem_cons_self _ _)
          · refine Or.inr ⟨h1, fun hp => h2 (List.mem_cons_of_mem _ hp), h3, h4⟩
      · rw [if_neg hpre] at ha ⊢
        exact ih (i + 1) st acc a ha

theorem discoverLinks_inScope_mem (env : Env) (cfg : Config) (sd : Nat → Bool)
    (base : String) (hsd : ∀ j, sd j = false) :
    ∀ links i st acc, ∀ link ∈ links,
      strStartsWith (resolveLink env.join base link) cfg.start_url = true →
      resolveLink env.join base link ∈
          (discoverLinks env cfg sd base links i st acc).1.crawled_urls ∨
        resolveLink env.join base link ∈
          (discoverLinks env cfg sd base links i st acc).1.pending_urls := by
  intro links
  induction links with
  | nil => intro i st acc link hl; simp at hl
  | cons link0 rest ih =>
    intro i st acc link hl hpre0
    simp only [discoverLinks]
    rw [if_neg (by rw [hsd i]; exact Bool.false_ne_true)]
    rcases List.mem_cons.mp hl with he | hrest
    · subst he
      rw [if_pos hpre0]
      by_cases hmem : resolveLink env.join base link ∈ st.crawled_urls ∨
          resolveLink env.join base link ∈ st.pending_urls
      · rw [if_pos hmem]
        rcases hmem with hc | hp
        · left
          rw [(discoverLinks_frame env cfg sd base rest (i + 1) st acc).1]
          exact hc
        · right
          exact discoverLinks_pending_mono env cfg sd base rest (i + 1) st acc _ hp
      · rw [if_neg hmem]
        right
        exact discoverLinks_pending_mono env cfg sd base rest (i + 1) _ _ _
          (List.mem_cons_self _ _)
    · by_cases hpre : strStartsWith (resolveLink env.join base link0) cfg.start_url = true
      · rw [if_pos hpre]
        by_cases hmem : resolveLink env.join base link0 ∈ st.crawled_urls ∨
            resolveLink env.join base link0 ∈ st.pending_urls
        · rw [if_pos hmem]
          exact ih (i + 1) st acc link hrest hpre0
        · rw [if_neg hmem]
          exact ih (i + 1) _ _ link hrest hpre0
      · rw [if_neg hpre]
        exact ih (i + 1) st acc link hrest hpre0

/-! ## Lemmas: `_get_page` entry point and `_write_page` -/

theorem getPage_frame (env : Env) (cfg : Config) (sd : Nat → Bool) (url : String)
    (st : CrawlState) :
    (getPage env cfg sd url st).2.1.crawled_urls = st.crawled_urls ∧
    (getPage env cfg sd url st).2.1.pending_urls = st.pending_urls ∧
    (getPage env cfg sd url st).2.1.files = st.files :=
  getPageAux_frame env url cfg.max_retries sd (cfg.max_retries + 1) 0 st

theorem getPage_disjoint (env : Env) (cfg : Config) (sd : Nat → Bool) (url : String)
    (st : CrawlState) (h : ∀ x ∈ st.proxies, x ∉ st.invalid_proxies) :
    ∀ x ∈ (getPage env cfg sd url st).2.1.proxies,
      x ∉ (getPage env cfg sd url st).2.1.invalid_proxies :=
  getPageAux_disjoint env url cfg.max_retries sd (cfg.max_retries + 1) 0 st h

theorem writePage_frame (b : Bool) (fn content : String) (st : CrawlState) :
    (writePage b fn content st).crawled_urls = st.crawled_urls ∧
    (writePage b fn content st).pending_urls = st.pending_urls ∧
    (writePage b fn content st).proxies = st.proxies ∧
    (writePage b fn content st).invalid_proxies = st.invalid_proxies := by
  unfold writePage
  split <;> exact ⟨rfl, rfl, rfl, rfl⟩

/-! ## Lemmas: `_process_url` -/

theorem handlePage_crawled (env : Env) (cfg : Config) (ob : Obs) (url : String)
    (gb : Option String) (gst : CrawlState) (gcalls : List Nat) :
    (handlePage env cfg ob url (gb, gst, gcalls)).1.crawled_urls = gst.crawled_urls := by
  cases gb with
  | none => rfl
  | some page =>
    simp only [handlePage]
    by_cases hp : page = ""
    · rw [if_pos hp]
    · rw [if_neg hp]
      have hd := (discoverLinks_frame env cfg ob.atLink url (env.hrefs page) 0
        (writePage ob.atWrite (sanitizeStr url) page gst) []).1
      have hw := (writePage_frame ob.atWrite (sanitizeStr url) page gst).1
      exact hd.trans hw

theorem handlePage_calls (env : Env) (cfg : Config) (ob : Obs) (url : String)
    (gb : Option String) (gst : CrawlState) (gcalls : List Nat) :
    (handlePage env cfg ob url (gb, gst, gcalls)).2.2 = [(url, gcalls)] := by
  cases gb with
  | none => rfl
  | some page =>
    simp only [handlePage]
    by_cases hp : page = ""
    · rw [if_pos hp]
    · rw [if_neg hp]

theorem handlePage_delta_inScope (env : Env) (cfg : Config) (ob : Obs) (url : String)
    (gb : Option String) (gst : CrawlState) (gcalls : List Nat) :
    ∀ a ∈ (handlePage env cfg ob url (gb, gst, gcalls)).2.1,
      strStartsWith a cfg.start_url = true := by
  intro a ha
  cases gb with
  | none => simp [handlePage] at ha
  | some page =>
    simp only [handlePage] at ha
    by_cases hp : page = ""
    · rw [if_pos hp] at ha
      simp at ha
    · rw [if_neg hp] at ha
      rcases discoverLinks_delta env cfg ob.atLink url (env.hrefs page) 0
          (writePage ob.atWrite (sanitizeStr url) page gst) [] a ha with h | ⟨_, _, h3, _⟩
      · simp at h
      · exact h3

theorem handlePage_pending_new (env : Env) (cfg : Config) (ob : Obs) (url : String)
    (gb : Option String) (gst : CrawlState) (gcalls : List Nat) :
    ∀ a ∈ (handlePage env cfg ob url (gb, gst, gcalls)).1.pending_urls,
      a ∈ gst.pending_urls ∨ strStartsWith a cfg.start_url = true := by
  intro a ha
  cases gb with
  | none => exact Or.inl ha
  | some page =>
    simp only [handlePage] at ha
    by_cases hp : page = ""
    · rw [if_pos hp] at ha
      exact Or.inl ha
    · rw [if_neg hp] at ha
      have := discoverLinks_pending_new env cfg ob.atLink url (env.hrefs page) 0
        (writePage ob.atWrite (sanitizeStr url) page gst) [] a ha
      rcases this with h | h
      · rw [(writePage_frame ob.atWrite (sanitizeStr url) page gst).2.1] at h
        exact Or.inl h
      · exact Or.inr h

theorem handlePage_disjoint (env : Env) (cfg : Config) (ob : Obs) (url : String)
    (gb : Option String) (gst : CrawlState) (gcalls : List Nat)
    (h : ∀ x ∈ gst.proxies, x ∉ gst.invalid_proxies) :
    ∀ x ∈ (handlePage env cfg ob url (gb, gst, gcalls)).1.proxies,
      x ∉ (handlePage env cfg ob url (gb, gst, gcalls)).1.invalid_proxies := by
  cases gb with
  | none => exact h
  | some page =>
    simp only [handlePage]
    by_cases hp : page = ""
    · rw [if_pos hp]
      exact h
    · rw [if_neg hp]
      intro x hx
      have hdp := (discoverLinks_frame env cfg ob.atLink url (env.hrefs page) 0
        (writePage ob.atWrite (sanitizeStr url) page gst) []).2.1
      have hdi := (discoverLinks_frame env cfg ob.atLink url (env.hrefs page) 0
        (writePage ob.atWrite (sanitizeStr url) page gst) []).2.2.1
      have hwp := (writePage_frame ob.atWrite (sanitizeStr url) page gst).2.2.1
      have hwi := (writePage_frame ob.atWrite (sanitizeStr url) page gst).2.2.2
      rw [hdp, hwp] at hx
      rw [hdi, hwi]
      exact h x hx

theorem processUrl_atStart (env : Env) (cfg : Config) (ob : Obs) (url : String)
    (st : CrawlState) (hs : ob.atStart = true) :
    processUrl env cfg ob url st = (st, [], []) := by
  unfold processUrl
  rw [if_pos hs]

theorem processUrl_notClaimed (env : Env) (cfg : Config) (ob : Obs) (url : String)
    (st : CrawlState) (hs : ob.atStart = false)
    (hc : (claimUrl cfg url st).1 = false) :
    processUrl env cfg ob url st = (st, [], []) := by
  unfold processUrl
  rw [if_neg (by simp [hs]), if_pos hc, claimUrl_false_state cfg url st hc]

theorem processUrl_claimed_crawled (env : Env) (cfg : Config) (ob : Obs) (url : String)
    (st : CrawlState) (hs : ob.atStart = false)
    (hc : (claimUrl cfg url st).1 = true) :
    (processUrl env cfg ob url st).1.crawled_urls = url :: st.crawled_urls := by
  unfold processUrl
  rw [if_neg (by simp [hs]), if_neg (by simp [hc])]
  rcases hgp : getPage env cfg ob.atFetch url (claimUrl cfg url st).2 with ⟨gb, gst, gcalls⟩
  have hgf := (getPage_frame env cfg ob.atFetch url (claimUrl cfg url st).2).1
  rw [hgp] at hgf
  rw [handlePage_crawled env cfg ob url gb gst gcalls, hgf,
      claimUrl_true_state cfg url st hc]

theorem processUrl_claimed_calls (env : Env) (cfg : Config) (ob : Obs) (url : String)
    (st : CrawlState) (hs : ob.atStart = false)
    (hc : (claimUrl cfg url st).1 = true) :
    ∃ atts, (processUrl env cfg ob url st).2.2 = [(url, atts)] := by
  unfold processUrl
  rw [if_neg (by simp [hs]), if_neg (by simp [hc])]
  rcases hgp : getPage env cfg ob.atFetch url (claimUrl cfg url st).2 with ⟨gb, gst, gcalls⟩
  exact ⟨gcalls, handlePage_calls env cfg ob url gb gst gcalls⟩

theorem processUrl_calls (env : Env) (cfg : Config) (ob : Obs) (url : String)
    (st : CrawlState) :
    (processUrl env cfg ob url st).2.2 = [] ∨
      (∃ atts, (processUrl env cfg ob url st).2.2 = [(url, atts)] ∧
        url ∉ st.crawled_urls ∧
        url ∈ (processUrl env cfg ob url st).1.crawled_urls) := by
  by_cases hs : ob.atStart = true
  · rw [processUrl_atStart env cfg ob url st hs]
    exact Or.inl rfl
  · have hs' : ob.atStart = false := by simpa using hs
    by_cases hc : (claimUrl cfg url st).1 = true
    · obtain ⟨atts, hatts⟩ := processUrl_claimed_calls env cfg ob url st hs' hc
      refine Or.inr ⟨atts, hatts, ?_, ?_⟩
      · exact ((claimUrl_true_iff cfg url st).mp hc).1
      · rw [processUrl_claimed_crawled env cfg ob url st hs' hc]
        exact List.mem_cons_self _ _
    · rw [processUrl_notClaimed env cfg ob url st hs' (by simpa using hc)]
      exact Or.inl rfl

theorem processUrl_crawled_sub (env : Env) (cfg : Config) (ob : Obs) (url : String)
    (st : CrawlState) :
    ∀ x ∈ st.crawled_urls, x ∈ (processUrl env cfg ob url st).1.crawled_urls := by
  intro x hx
  by_cases hs : ob.atStart = true
  · rw [processUrl_atStart env cfg ob url st hs]
    exact hx
  · have hs' : ob.atStart = false := by simpa using hs
    by_cases hc : (claimUrl cfg url st).1 = true
    · rw [processUrl_claimed_crawled env cfg ob url st hs' hc]
      exact List.mem_cons_of_mem _ hx
    · rw [processUrl_notClaimed env cfg ob url st hs' (by simpa using hc)]
      exact hx

theorem processUrl_delta_inScope (env : Env) (cfg : Config) (ob : Obs) (url : String)
    (st : CrawlState) :
    ∀ a ∈ (processUrl env cfg ob url st).2.1, strStartsWith a cfg.start_url = true := by
  intro a ha
  by_cases hs : ob.atStart = true
  · rw [processUrl_atStart env cfg ob url st hs] at ha
    simp at ha
  · have hs' : ob.atStart = false := by simpa using hs
    by_cases hc : (claimUrl cfg url st).1 = true
    · unfold processUrl at ha
      rw [if_neg (by simp [hs']), if_neg (by simp [hc])] at ha
      rcases hgp : getPage env cfg ob.atFetch url (claimUrl cfg url st).2 with ⟨gb, gst, gcalls⟩
      rw [hgp] at ha
      exact handlePage_delta_inScope env cfg ob url gb gst gcalls a ha
    · rw [processUrl_notClaimed env cfg ob url st hs' (by simpa using hc)] at ha
      simp at ha

theorem processUrl_pending_new (env : Env) (cfg : Config) (ob : Obs) (url : String)
    (st : CrawlState) :
    ∀ a ∈ (processUrl env cfg ob url st).1.pending_urls,
      a ∈ st.pending_urls ∨ strStartsWith a cfg.start_url = true := by
  intro a ha
  by_cases hs : ob.atStart = true
  · rw [processUrl_atStart env cfg ob url st hs] at ha
    exact Or.inl ha
  · have hs' : ob.atStart = false := by simpa using hs
    by_cases hc : (claimUrl cfg url st).1 = true
    · unfold processUrl at ha
      rw [if_neg (by simp [hs']), if_neg (by simp [hc])] at ha
      rcases hgp : getPage env cfg ob.atFetch url (claimUrl cfg url st).2 with ⟨gb, gst, gcalls⟩
      rw [hgp] at ha
      rcases handlePage_pending_new env cfg ob url gb gst gcalls a ha with h | h
      · have hgf := (getPage_frame env cfg ob.atFetch url (claimUrl cfg url st).2).2.1
        rw [hgp] at hgf
        rw [hgf, claimUrl_true_state cfg url st hc] at h
        exact Or.inl h
      · exact Or.inr h
    · rw [processUrl_notClaimed env cfg ob url st hs' (by simpa using hc)] at ha
      exact Or.inl ha

theorem processUrl_disjoint (env : Env) (cfg : Config) (ob : Obs) (url : String)
    (st : CrawlState) (h : ∀ x ∈ st.proxies, x ∉ st.invalid_proxies) :
    ∀ x ∈ (processUrl env cfg ob url st).1.proxies,
      x ∉ (processUrl env cfg ob url st).1.invalid_proxies := by
  by_cases hs : ob.atStart = true
  · rw [processUrl_atStart env cfg ob url st hs]
    exact h
  · have hs' : ob.atStart = false := by simpa using hs
    by_cases hc : (claimUrl cfg url st).1 = true
    · unfold processUrl
      rw [if_neg (by simp [hs']), if_neg (by simp [hc])]
      rcases hgp : getPage env cfg ob.atFetch url (claimUrl cfg url st).2 with ⟨gb, gst, gcalls⟩
      have hgd := getPage_disjoint env cfg ob.atFetch url (claimUrl cfg url st).2
        (by rw [claimUrl_true_state cfg url st hc]; exact h)
      rw [hgp] at hgd
      exact handlePage_disjoint env cfg ob url gb gst gcalls hgd
    · rw [processUrl_notClaimed env cfg ob url st hs' (by simpa using hc)]
      exact h

/-! ## Lemmas: one generation (`processBatch`) -/

theorem processBatch_step (env : Env) (cfg : Config) (gen : Nat) (url : String)
    (rest : List String) (st : CrawlState) :
    processBatch env cfg gen (url :: rest) st =
      ((processBatch env cfg gen rest (processUrl env cfg (env.obs gen url) url st).1).1,
       (processUrl env cfg (env.obs gen url) url st).2.1 ++
         (processBatch env cfg gen rest (processUrl env cfg (env.obs gen url) url st).1).2.1,
       (processUrl env cfg (env.obs gen url) url st).2.2 ++
         (processBatch env cfg gen rest (processUrl env cfg (env.obs gen url) url st).1).2.2) :=
  rfl

theorem processBatch_calls (env : Env) (cfg : Config) (gen : Nat) :
    ∀ frontier st,
      (∀ pa ∈ (processBatch env cfg gen frontier st).2.2,
          pa.1 ∉ st.crawled_urls ∧
          pa.1 ∈ (processBatch env cfg gen frontier st).1.crawled_urls) ∧
      ((processBatch env cfg gen frontier st).2.2.map Prod.fst).Nodup ∧
      (∀ x ∈ st.crawled_urls, x ∈ (processBatch env cfg gen frontier st).1.crawled_urls) := by
  intro frontier
  induction frontier with
  | nil =>
    intro st
    refine ⟨?_, ?_, fun x hx => hx⟩
    · intro pa hpa
      simp [processBatch] at hpa
    · simp [processBatch]
  | cons url rest ih =>
    intro st
    rw [processBatch_step]
    obtain ⟨ihA, ihB, ihC⟩ := ih (processUrl env cfg (env.obs gen url) url st).1
    have hmono := processUrl_crawled_sub env cfg (env.obs gen url) url st
    rcases processUrl_calls env cfg (env.obs gen url) url st with hnil | ⟨atts, hatts, hnotin, hin⟩
    · rw [hnil]
      refine ⟨?_, ?_, ?_⟩
      · intro pa hpa
        rw [List.nil_append] at hpa
        obtain ⟨h1, h2⟩ := ihA pa hpa
        exact ⟨fun hc => h1 (hmono pa.1 hc), h2⟩
      · simpa using ihB
      · intro x hx
        exact ihC x (hmono x hx)
    · rw [hatts]
      refine ⟨?_, ?_, ?_⟩
      · intro pa hpa
        rcases List.mem_append.mp hpa with hp | hp
        · rw [List.mem_singleton] at hp
          subst hp
          exact ⟨hnotin, ihC url hin⟩
        · obtain ⟨h1, h2⟩ := ihA pa hp
          exact ⟨fun hc => h1 (hmono pa.1 hc), h2⟩
      · simp only [List.map_append, List.map_cons, List.map_nil, List.singleton_append,
          List.nodup_cons]
        refine ⟨?_, ihB⟩
        intro hmem
        rw [List.mem_map] at hmem
        obtain ⟨pa, hpa, hfst⟩ := hmem
        obtain ⟨h1, _⟩ := ihA pa hpa
        rw [hfst] at h1
        exact h1 hin
      · intro x hx
        exact ihC x (hmono x hx)

theorem processBatch_calls_urls (env : Env) (cfg : Config) (gen : Nat) :
    ∀ frontier st, ∀ pa ∈ (processBatch env cfg gen frontier st).2.2,
      pa.1 ∈ frontier := by
  intro frontier
  induction frontier with
  | nil =>
    intro st pa hpa
    simp [processBatch] at hpa
  | cons url rest ih =>
    intro st pa hpa
    rw [processBatch_step] at hpa
    rcases List.mem_append.mp hpa with hp | hp
    · rcases processUrl_calls env cfg (env.obs gen url) url st with hnil | ⟨atts, hatts, _, _⟩
      · rw [hnil] at hp
        simp at hp
      · rw [hatts, List.mem_singleton] at hp
        subst hp
        exact List.mem_cons_self _ _
    · exact List.mem_cons_of_mem _ (ih _ pa hp)

theorem processBatch_delta_inScope (env : Env) (cfg : Config) (gen : Nat) :
    ∀ frontier st, ∀ a ∈ (processBatch env cfg gen frontier st).2.1,
      strStartsWith a cfg.start_url = true := by
  intro frontier
  induction frontier with
  | nil =>
    intro st a ha
    simp [processBatch] at ha
  | cons url rest ih =>
    intro st a ha
    rw [processBatch_step] at ha
    rcases List.mem_append.mp ha with hp | hp
    · exact processUrl_delta_inScope env cfg (env.obs gen url) url st a hp
    · exact ih _ a hp

theorem processBatch_disjoint (env : Env) (cfg : Config) (gen : Nat) :
    ∀ frontier st, (∀ x ∈ st.proxies, x ∉ st.invalid_proxies) →
      ∀ x ∈ (processBatch env cfg gen frontier st).1.proxies,
        x ∉ (processBatch env cfg gen frontier st).1.invalid_proxies := by
  intro frontier
  induction frontier with
  | nil => intro st h; exact h
  | cons url rest ih =>
    intro st h
    rw [processBatch_step]
    exact ih _ (processUrl_disjoint env cfg (env.obs gen url) url st h)

/-! ## Lemmas: the generation loop -/

theorem crawlLoop_step (env : Env) (cfg : Config) (fuel gen : Nat)
    (frontier : List String) (st : CrawlState)
    (h : (frontier.isEmpty || env.sdGen gen) = false) :
    crawlLoop env cfg (fuel + 1) gen frontier st =
      ((crawlLoop env cfg fuel (gen + 1) (processBatch env cfg gen frontier st).2.1
          (processBatch env cfg gen frontier st).1).1,
       (processBatch env cfg gen frontier st).2.2 ++
         (crawlLoop env cfg fuel (gen + 1) (processBatch env cfg gen frontier st).2.1
           (processBatch env cfg gen frontier st).1).2) := by
  simp only [crawlLoop]
  rw [if_neg (by simp [h])]

theorem crawlLoop_stopped (env : Env) (cfg : Config) (fuel gen : Nat)
    (frontier : List String) (st : CrawlState)
    (h : (frontier.isEmpty || env.sdGen gen) = true) :
    crawlLoop env cfg fuel gen frontier st = (st, []) := by
  cases fuel with
  | zero => rfl
  | succ f =>
    simp only [crawlLoop]
    rw [if_pos h]

theorem crawlLoop_calls (env : Env) (cfg : Config) :
    ∀ fuel gen frontier st,
      (∀ pa ∈ (crawlLoop env cfg fuel gen frontier st).2,
          pa.1 ∉ st.crawled_urls ∧
          pa.1 ∈ (crawlLoop env cfg fuel gen frontier st).1.crawled_urls) ∧
      ((crawlLoop env cfg fuel gen frontier st).2.map Prod.fst).Nodup ∧
      (∀ x ∈ st.crawled_urls, x ∈ (crawlLoop env cfg fuel gen frontier st).1.crawled_urls) := by
  intro fuel
  induction fuel with
  | zero =>
    intro gen frontier st
    exact ⟨fun pa hpa => by simp [crawlLoop] at hpa, by simp [crawlLoop], fun x hx => hx⟩
  | succ f ih =>
    intro gen frontier st
    by_cases hstop : (frontier.isEmpty || env.sdGen gen) = true
    · rw [crawlLoop_stopped env cfg (f + 1) gen frontier st hstop]
      exact ⟨fun pa hpa => by simp at hpa, by simp, fun x hx => hx⟩
    · have hstop' : (frontier.isEmpty || env.sdGen gen) = false := by
        simpa using hstop
      rw [crawlLoop_step env cfg f gen frontier st hstop']
      obtain ⟨bA, bB, bC⟩ := processBatch_calls env cfg gen frontier st
      obtain ⟨iA, iB, iC⟩ := ih (gen + 1) (processBatch env cfg gen frontier st).2.1
        (processBatch env cfg gen frontier st).1
      refine ⟨?_, ?_, ?_⟩
      · intro pa hpa
        rcases List.mem_append.mp hpa with hp | hp
        · obtain ⟨h1, h2⟩ := bA pa hp
          exact ⟨h1, iC pa.1 h2⟩
        · obtain ⟨h1, h2⟩ := iA pa hp
          exact ⟨fun hc => h1 (bC pa.1 hc), h2⟩
      · rw [List.map_append]
        rw [List.nodup_append]
        refine ⟨bB, iB, ?_⟩
        intro x hx hx2
        rw [List.mem_map] at hx hx2
        obtain ⟨pa, hpa, hfst⟩ := hx
        obtain ⟨pb, hpb, hfst2⟩ := hx2
        obtain ⟨_, h2⟩ := bA pa hpa
        obtain ⟨h3, _⟩ := iA pb hpb
        rw [hfst] at h2
        rw [hfst2] at h3
        exact h3 h2
      · intro x hx
        exact iC x (bC x hx)

theorem crawlLoop_calls_inScope (env : Env) (cfg : Config) :
    ∀ fuel gen frontier st,
      (∀ u ∈ frontier, strStartsWith u cfg.start_url = true) →
      ∀ pa ∈ (crawlLoop env cfg fuel gen frontier st).2,
        strStartsWith pa.1 cfg.start_url = true := by
  intro fuel
  induction fuel with
  | zero =>
    intro gen frontier st _ pa hpa
    simp [crawlLoop] at hpa
  | succ f ih =>
    intro gen frontier st hfr pa hpa
    by_cases hstop : (frontier.isEmpty || env.sdGen gen) = true
    · rw [crawlLoop_stopped env cfg (f + 1) gen frontier st hstop] at hpa
      simp at hpa
    · have hstop' : (frontier.isEmpty || env.sdGen gen) = false := by
        simpa using hstop
      rw [crawlLoop_step env cfg f gen frontier st hstop'] at hpa
      rcases List.mem_append.mp hpa with hp | hp
      · exact hfr pa.1 (processBatch_calls_urls env cfg gen frontier st pa hp)
      · exact ih (gen + 1) _ _ (processBatch_delta_inScope env cfg gen frontier st) pa hp

theorem crawlLoop_disjoint (env : Env) (cfg : Config) :
    ∀ fuel gen frontier st, (∀ x ∈ st.proxies, x ∉ st.invalid_proxies) →
      ∀ x ∈ (crawlLoop env cfg fuel gen frontier st).1.proxies,
        x ∉ (crawlLoop env cfg fuel gen frontier st).1.invalid_proxies := by
  intro fuel
  induction fuel with
  | zero => intro gen frontier st h; exact h
  | succ f ih =>
    intro gen frontier st h
    by_cases hstop : (frontier.isEmpty || env.sdGen gen) = true
    · rw [crawlLoop_stopped env cfg (f + 1) gen frontier st hstop]
      exact h
    · have hstop' : (frontier.isEmpty || env.sdGen gen) = false := by
        simpa using hstop
      rw [crawlLoop_step env cfg f gen frontier st hstop']
      exact ih (gen + 1) _ _ (processBatch_disjoint env cfg gen frontier st h)

/-! ## String prefix/containment lemmas -/

theorem charsLeadWith_append (p e : List Char) : charsLeadWith p (p ++ e) = true := by
  induction p with
  | nil => rfl
  | cons c cs ih => simp [charsLeadWith, ih]

theorem strStartsWith_append (s e : String) : strStartsWith (s ++ e) s = true := by
  unfold strStartsWith
  rw [String.data_append]
  exact charsLeadWith_append s.data e.data

theorem charsLeadWith_of_append (p q : List Char) :
    ∀ l, charsLeadWith (p ++ q) l = true → charsLeadWith p l = true := by
  induction p with
  | nil => intro l _; rfl
  | cons c cs ih =>
    intro l h
    cases l with
    | nil => simp [charsLeadWith] at h
    | cons d ds =>
      simp only [List.cons_append, charsLeadWith, Bool.and_eq_true] at h ⊢
      exact ⟨h.1, ih ds h.2⟩

theorem charsContain_of_leadWith (p l : List Char) (h : charsLeadWith p l = true) :
    charsContain p l = true := by
  cases l with
  | nil => simpa [charsContain] using h
  | cons c cs => simp [charsContain, h]

theorem strContainsHttp_of_scheme (s : String)
    (h : strStartsWith s "http://" = true ∨ strStartsWith s "https://" = true) :
    strContainsHttp s = true := by
  unfold strContainsHttp
  unfold strStartsWith at h
  rcases h with h | h
  · have e : ("http://".data : List Char) = "http".data ++ "://".data := by decide
    rw [e] at h
    exact charsContain_of_leadWith _ _ (charsLeadWith_of_append _ _ _ h)
  · have e : ("https://".data : List Char) = "http".data ++ "s://".data := by decide
    rw [e] at h
    exact charsContain_of_leadWith _ _ (charsLeadWith_of_append _ _ _ h)

/-! ## First-attempt behaviour of `_get_page` -/

theorem getPage_success0 (env : Env) (cfg : Config) (sd : Nat → Bool) (url : String)
    (st : CrawlState) (body : String) (hsd : sd 0 = false)
    (hnet : env.net url 0 (getProxy st.proxies (env.choose url 0)) =
      AttemptOutcome.success body) :
    getPage env cfg sd url st = (some body, st, [0]) := by
  show getPageAux env url cfg.max_retries sd (cfg.max_retries + 1) 0 st = _
  simp only [getPageAux]
  rw [if_neg (by simp [hsd]), hnet]
  rfl

theorem getPage_httpError0 (env : Env) (cfg : Config) (sd : Nat → Bool) (url : String)
    (st : CrawlState) (status : Nat) (hsd : sd 0 = false)
    (hnet : env.net url 0 (getProxy st.proxies (env.choose url 0)) =
      AttemptOutcome.httpError status) :
    getPage env cfg sd url st = (none, st, [0]) := by
  show getPageAux env url cfg.max_retries sd (cfg.max_retries + 1) 0 st = _
  simp only [getPageAux]
  rw [if_neg (by simp [hsd]), hnet]
  rfl

theorem writePage_shutdown (fn content : String) (st : CrawlState) :
    writePage true fn content st = st := by
  unfold writePage
  rw [if_pos rfl]

/-! ## Claim theorems -/

/-- C2, counterexample: `_sanitize_url` strips the scheme before encoding,
so the two distinct URLs `http://a` and `https://a` derive the same
filename — the derivation is neither injective nor reversible on full
URLs. -/
theorem sanitize_not_injective_cex :
    sanitizeStr "http://a" = sanitizeStr "https://a" ∧
    ("http://a" : String) ≠ "https://a" := by
  constructor
  · decide
  · decide

/-- C2, amended: the filename derivation is deterministic, and it is
collision-free and reversible exactly up to the scheme prefix: the
scheme-stripped remainder is recovered from the encoded name by
`unsanitizeStr`, and two URLs derive the same name if and only if their
scheme-stripped remainders coincide. -/
theorem sanitize_collision_amended (u1 u2 : String) :
    unsanitizeStr (sanitizeStr u1) = some (stripSchemeStr u1) ∧
    (sanitizeStr u1 = sanitizeStr u2 ↔ stripSchemeStr u1 = stripSchemeStr u2) := by
  refine ⟨unsanitize_sanitize u1, ?_, ?_⟩
  · intro h
    have h1 := unsanitize_sanitize u1
    have h2 := unsanitize_sanitize u2
    rw [h] at h1
    exact Option.some.inj (h1.symm.trans h2)
  · intro h
    unfold sanitizeStr
    rw [h]

/-- C4, counterexample: the href `/a-http-b` contains no scheme
indicator, yet `_process_url` uses it as-is (because the branch tests the
substring `http` anywhere in the href, not a scheme marker), instead of
resolving it against the base `https://example.com/x` to
`https://example.com/a-http-b` as standard base+relative resolution
requires. -/
theorem resolve_substring_cex :
    strContainsHttp "/a-http-b" = true ∧
    specHasSchemeMarker "/a-http-b" = false ∧
    resolveLink specUrljoin "https://example.com/x" "/a-http-b" = "/a-http-b" ∧
    specUrljoin "https://example.com/x" "/a-http-b" = "https://example.com/a-http-b" ∧
    ("/a-http-b" : String) ≠ "https://example.com/a-http-b" := by
  refine ⟨by decide, by decide, ?_, by decide, by decide⟩
  unfold resolveLink
  rw [if_pos (by decide)]

/-- C4, amended: an href is used as-is iff the four-character substring
`http` occurs anywhere in it (case-sensitive); only hrefs without `http`
anywhere are passed to base+relative resolution (`urljoin`).  In
particular every href starting with `http://` or `https://` is used
as-is, but so is any relative href that merely contains `http`. -/
theorem resolve_branch_amended (join : String → String → String) (base link : String) :
    (strContainsHttp link = false → resolveLink join base link = join base link) ∧
    (strContainsHttp link = true → resolveLink join base link = link) ∧
    ((strStartsWith link "http://" = true ∨ strStartsWith link "https://" = true) →
      resolveLink join base link = link) := by
  refine ⟨?_, ?_, ?_⟩
  · intro h
    unfold resolveLink
    rw [if_neg (by simp [h])]
  · intro h
    unfold resolveLink
    rw [if_pos h]
  · intro h
    unfold resolveLink
    rw [if_pos (strContainsHttp_of_scheme link h)]

/-- Shutdown observations for demonstration runs: flag seen clear at task
start and at every fetch attempt and link-loop head, but set at
`_write_page`. -/
def demoOb : Obs :=
  ⟨false, fun _ => false, true, fun _ => false⟩

/-- Oracles for demonstration runs: every GET succeeds with body `"x"`,
the proxy pick is index 0, pages have no links, `urljoin` returns the
base, no shutdown at generation level. -/
def demoEnv : Env :=
  ⟨fun _ _ _ => AttemptOutcome.success "x", fun _ _ => 0, fun _ => [],
   fun b _ => b, fun _ _ => demoOb, fun _ => false⟩

/-- Oracles under which every GET raises a transport error. -/
def failEnv : Env :=
  ⟨fun _ _ _ => AttemptOutcome.transportError, fun _ _ => 0, fun _ => [],
   fun b _ => b, fun _ _ => demoOb, fun _ => false⟩

/-- Configuration with `max_retries = 0` and no pre-existing files. -/
def cexCfg : Config := ⟨"http://a/", [], 0⟩

/-- C3, the code's divergence at a failing input: with `max_retries = 0`
and proxy `p1` trusted, a transport failure on the final (only) allowed
attempt returns `None` *before* the proxy-removal block runs, so `p1`
stays in the trusted set, the invalid set stays empty, and a subsequent
selection picks the very proxy that just failed. -/
theorem proxy_kept_on_final_failure :
    getPage failEnv cexCfg (fun _ => false) "http://a/" (initialState ["p1"]) =
      (none, initialState ["p1"], [0]) ∧
    (getPage failEnv cexCfg (fun _ => false) "http://a/" (initialState ["p1"])).2.1.proxies
      = ["p1"] ∧
    (getPage failEnv cexCfg (fun _ => false) "http://a/"
      (initialState ["p1"])).2.1.invalid_proxies = [] ∧
    getProxy (getPage failEnv cexCfg (fun _ => false) "http://a/"
      (initialState ["p1"])).2.1.proxies 0 = some "p1" := by
  refine ⟨?_, by decide, by decide, by decide⟩
  decide

/-- The loop of `_get_page` when attempts `0..k-1` all raise transport
errors and attempt `k` gets an HTTP response (200 or not): the loop stops
at attempt `k`, returning the body on 200 and `none` otherwise, having
issued exactly the GETs `attempt..k` — a status error at any attempt ends
the fetch with no later attempt. -/
theorem getPageAux_firstNonTransport (env : Env) (url : String) (m : Nat)
    (sd : Nat → Bool) (k : Nat) (out : AttemptOutcome)
    (hsd : ∀ i, sd i = false)
    (hlt : ∀ i pr, i < k → env.net url i pr = AttemptOutcome.transportError)
    (hk : ∀ pr, env.net url k pr = out)
    (hout : out ≠ AttemptOutcome.transportError) :
    ∀ fuel attempt st, attempt + fuel = m + 1 → attempt ≤ k → k ≤ m →
      (getPageAux env url m sd fuel attempt st).1 =
        (match out with
         | AttemptOutcome.success body => some body
         | AttemptOutcome.httpError _ => none
         | AttemptOutcome.transportError => none) ∧
      (getPageAux env url m sd fuel attempt st).2.2 =
        List.range' attempt (k + 1 - attempt) := by
  intro fuel
  induction fuel with
  | zero =>
    intro attempt st h1 h2 h3
    exact absurd h1 (by omega)
  | succ f ih =>
    intro attempt st h1 h2 h3
    simp only [getPageAux]
    rw [if_neg (by rw [hsd attempt]; exact Bool.false_ne_true)]
    by_cases hak : attempt = k
    · subst hak
      rw [hk (getProxy st.proxies (env.choose url attempt))]
      cases out with
      | success body =>
        refine ⟨rfl, ?_⟩
        have he : attempt + 1 - attempt = 1 := by omega
        rw [he]
        rfl
      | httpError s =>
        refine ⟨rfl, ?_⟩
        have he : attempt + 1 - attempt = 1 := by omega
        rw [he]
        rfl
      | transportError => exact absurd rfl hout
    · have hltk : attempt < k := by omega
      rw [hlt attempt (getProxy st.proxies (env.choose url attempt)) hltk]
      simp only [getPageStep]
      rw [if_neg (by simp only [beq_iff_eq]; omega)]
      obtain ⟨ih1, ih2⟩ := ih (attempt + 1)
        (dropFailedProxy (getProxy st.proxies (env.choose url attempt)) st)
        (by omega) (by omega) h3
      refine ⟨ih1, ?_⟩
      show attempt :: (getPageAux env url m sd f (attempt + 1) _).2.2 = _
      rw [ih2]
      have he : k + 1 - attempt = (k - attempt) + 1 := by omega
      have he2 : k + 1 - (attempt + 1) = k - attempt := by omega
      rw [he2, he, List.range'_succ]

/-- C6: `_get_page` makes at most `max_retries + 1` sequential attempts;
whatever attempt an HTTP 200 arrives on, the body is returned immediately
and no later attempt is issued (the GET log is exactly `[0..k]`);
whatever attempt a non-200 status arrives on, the result is `none`
immediately with no later attempt (status errors are never retried — only
transport errors are); and when every attempt raises a transport error
the result is `none` after exactly `max_retries + 1` issued GETs (3 when
`max_retries = 2`). -/
theorem getPage_retry_policy (env : Env) (cfg : Config) (sd : Nat → Bool)
    (url : String) (st : CrawlState) :
    (getPage env cfg sd url st).2.2.length ≤ cfg.max_retries + 1 ∧
    (∀ k body, (∀ i, sd i = false) → k ≤ cfg.max_retries →
      (∀ i pr, i < k → env.net url i pr = AttemptOutcome.transportError) →
      (∀ pr, env.net url k pr = AttemptOutcome.success body) →
      (getPage env cfg sd url st).1 = some body ∧
      (getPage env cfg sd url st).2.2 = List.range (k + 1)) ∧
    (∀ k status, (∀ i, sd i = false) → k ≤ cfg.max_retries →
      (∀ i pr, i < k → env.net url i pr = AttemptOutcome.transportError) →
      (∀ pr, env.net url k pr = AttemptOutcome.httpError status) →
      (getPage env cfg sd url st).1 = none ∧
      (getPage env cfg sd url st).2.2 = List.range (k + 1)) ∧
    ((∀ i, sd i = false) →
      (∀ i pr, env.net url i pr = AttemptOutcome.transportError) →
      (getPage env cfg sd url st).1 = none ∧
      (getPage env cfg sd url st).2.2.length = cfg.max_retries + 1) := by
  refine ⟨?_, ?_, ?_, ?_⟩
  · exact getPageAux_len env url cfg.max_retries sd (cfg.max_retries + 1) 0 st
  · intro k body hsd hk hlt hnet
    obtain ⟨ha, hb⟩ := getPageAux_firstNonTransport env url cfg.max_retries sd k
      (AttemptOutcome.success body) hsd hlt hnet
      (fun h => AttemptOutcome.noConfusion h)
      (cfg.max_retries + 1) 0 st (by omega) (by omega) hk
    refine ⟨ha, ?_⟩
    show (getPageAux env url cfg.max_retries sd (cfg.max_retries + 1) 0 st).2.2 =
      List.range (k + 1)
    rw [hb, List.range_eq_range']
    congr 1
  · intro k status hsd hk hlt hnet
    obtain ⟨ha, hb⟩ := getPageAux_firstNonTransport env url cfg.max_retries sd k
      (AttemptOutcome.httpError status) hsd hlt hnet
      (fun h => AttemptOutcome.noConfusion h)
      (cfg.max_retries + 1) 0 st (by omega) (by omega) hk
    refine ⟨ha, ?_⟩
    show (getPageAux env url cfg.max_retries sd (cfg.max_retries + 1) 0 st).2.2 =
      List.range (k + 1)
    rw [hb, List.range_eq_range']
    congr 1
  · intro hsd hnet
    exact getPageAux_allTransport env url cfg.max_retries sd hsd hnet
      (cfg.max_retries + 1) 0 st (by omega)

/-- C8: once the shutdown flag is observed, no fetch is started —
`_get_page` returns `none` with no GET issued and no retry consumed when
the flag is set at the head of the first attempt, every GET that is
issued happened under a clear flag, a task that sees the flag at its
start returns the empty set leaving the state untouched, and the
generation loop starts no generation after observing the flag. -/
theorem shutdown_no_new_fetch (env : Env) (cfg : Config) (sd : Nat → Bool)
    (url : String) (st : CrawlState) (ob : Obs) (fuel gen : Nat)
    (frontier : List String) :
    (sd 0 = true → getPage env cfg sd url st = (none, st, [])) ∧
    (∀ i ∈ (getPage env cfg sd url st).2.2, sd i = false) ∧
    (ob.atStart = true → processUrl env cfg ob url st = (st, [], [])) ∧
    (env.sdGen gen = true → crawlLoop env cfg fuel gen frontier st = (st, [])) := by
  refine ⟨?_, ?_, ?_, ?_⟩
  · intro h
    show getPageAux env url cfg.max_retries sd (cfg.max_retries + 1) 0 st = _
    simp only [getPageAux]
    rw [if_pos h]
  · exact getPageAux_sd_false env url cfg.max_retries sd (cfg.max_retries + 1) 0 st
  · exact processUrl_atStart env cfg ob url st
  · intro h
    exact crawlLoop_stopped env cfg fuel gen frontier st (by simp [h])

/-- C9: `_get_proxy` returns `None` exactly when the trusted set is empty
and otherwise a member of the trusted set, never one already marked
invalid; and the trusted and invalid proxy sets stay disjoint through
every task and through a whole run started from the initial state. -/
theorem proxy_sets_invariant (env : Env) (cfg : Config) (ps : List String)
    (c : Nat) (p url : String) (ob : Obs) (st : CrawlState) (fuel gen : Nat)
    (frontier : List String) (proxies0 : List String) :
    (getProxy ps c = none ↔ ps = []) ∧
    (getProxy ps c = some p → p ∈ ps) ∧
    ((∀ x ∈ st.proxies, x ∉ st.invalid_proxies) →
      getProxy st.proxies c = some p → p ∉ st.invalid_proxies) ∧
    ((∀ x ∈ st.proxies, x ∉ st.invalid_proxies) →
      ∀ x ∈ (processUrl env cfg ob url st).1.proxies,
        x ∉ (processUrl env cfg ob url st).1.invalid_proxies) ∧
    (∀ x ∈ (crawlLoop env cfg fuel gen frontier (initialState proxies0)).1.proxies,
      x ∉ (crawlLoop env cfg fuel gen frontier (initialState proxies0)).1.invalid_proxies) := by
  refine ⟨getProxy_eq_none_iff ps c, getProxy_mem ps c p, ?_, ?_, ?_⟩
  · intro h hp
    exact h p (getProxy_mem st.proxies c p hp)
  · exact processUrl_disjoint env cfg ob url st
  · exact crawlLoop_disjoint env cfg fuel gen frontier (initialState proxies0)
      (fun x _ hx => by simp [initialState] at hx)

/-- C10: when the shutdown flag is observed clear at the task start and
during the fetch, but set by the time `_write_page` runs, a URL whose
fetch succeeded ends with its page silently dropped: the run's file log
is unchanged while the URL is marked crawled and its GET was issued. -/
theorem shutdown_drops_fetched_page (env : Env) (cfg : Config) (ob : Obs)
    (url body : String) (st : CrawlState)
    (h1 : ob.atStart = false) (h2 : ob.atFetch 0 = false) (h3 : ob.atWrite = true)
    (h4 : url ∉ st.crawled_urls) (h5 : sanitizeStr url ∉ cfg.existing_files)
    (h6 : env.net url 0 (getProxy st.proxies (env.choose url 0)) =
      AttemptOutcome.success body)
    (h7 : body ≠ "") :
    (processUrl env cfg ob url st).1.files = st.files ∧
    url ∈ (processUrl env cfg ob url st).1.crawled_urls ∧
    (processUrl env cfg ob url st).2.2 = [(url, [0])] := by
  have hcl : (claimUrl cfg url st).1 = true := (claimUrl_true_iff cfg url st).mpr ⟨h4, h5⟩
  unfold processUrl
  rw [if_neg (by simp [h1]), if_neg (by simp [hcl]), claimUrl_true_state cfg url st hcl]
  have hgp : getPage env cfg ob.atFetch url { st with crawled_urls := url :: st.crawled_urls } =
      (some body, { st with crawled_urls := url :: st.crawled_urls }, [0]) :=
    getPage_success0 env cfg ob.atFetch url _ body h2 h6
  rw [hgp]
  simp only [handlePage]
  rw [if_neg h7, h3, writePage_shutdown]
  refine ⟨?_, ?_, rfl⟩
  · exact (discoverLinks_frame env cfg ob.atLink url (env.hrefs body) 0
      { st with crawled_urls := url :: st.crawled_urls } []).2.2.2
  · rw [(discoverLinks_frame env cfg ob.atLink url (env.hrefs body) 0
      { st with crawled_urls := url :: st.crawled_urls } []).1]
    exact List.mem_cons_self _ _

/-- C10 witness: the scenario at a concrete input. -/
theorem shutdown_drops_fetched_page_witness :
    (processUrl demoEnv cexCfg demoOb "http://a/" (initialState [])).1.files =
      (initialState []).files ∧
    "http://a/" ∈ (processUrl demoEnv cexCfg demoOb "http://a/" (initialState [])).1.crawled_urls ∧
    (processUrl demoEnv cexCfg demoOb "http://a/" (initialState [])).2.2 =
      [("http://a/", [0])] :=
  shutdown_drops_fetched_page demoEnv cexCfg demoOb "http://a/" "x" (initialState [])
    rfl rfl rfl (by decide) (by decide) rfl (by decide)

/-- C5: the scope filter is a plain string-prefix test on the exact
start-URL string: every URL the link loop adds to pending starts with the
start URL; with no shutdown and all previously scheduled URLs in scope, a
discovered link's resolved URL is scheduled (in the crawled or pending
set after the loop) iff it passes the prefix test; every GET a run issues
is for a prefix-passing URL; and any string extension of the start URL —
including a sibling like start-URL + `-extra` — passes the test. -/
theorem scope_prefix_filter (env : Env) (cfg : Config) (sd : Nat → Bool) (base : String)
    (links : List String) (i : Nat) (st : CrawlState) (acc : List String)
    (fuel gen : Nat) (frontier : List String) (e : String) :
    (∀ a ∈ (discoverLinks env cfg sd base links i st acc).1.pending_urls,
        a ∈ st.pending_urls ∨ strStartsWith a cfg.start_url = true) ∧
    ((∀ j, sd j = false) →
      (∀ u ∈ st.crawled_urls, strStartsWith u cfg.start_url = true) →
      (∀ u ∈ st.pending_urls, strStartsWith u cfg.start_url = true) →
      ∀ link ∈ links,
        ((resolveLink env.join base link ∈
            (discoverLinks env cfg sd base links i st acc).1.crawled_urls ∨
          resolveLink env.join base link ∈
            (discoverLinks env cfg sd base links i st acc).1.pending_urls) ↔
         strStartsWith (resolveLink env.join base link) cfg.start_url = true)) ∧
    ((∀ u ∈ frontier, strStartsWith u cfg.start_url = true) →
      ∀ pa ∈ (crawlLoop env cfg fuel gen frontier st).2,
        strStartsWith pa.1 cfg.start_url = true) ∧
    strStartsWith (cfg.start_url ++ e) cfg.start_url = true := by
  refine ⟨discoverLinks_pending_new env cfg sd base links i st acc, ?_,
    crawlLoop_calls_inScope env cfg fuel gen frontier st,
    strStartsWith_append cfg.start_url e⟩
  intro hsd hcr hpe link hl
  constructor
  · intro hmem
    rcases hmem with hm | hm
    · rw [(discoverLinks_frame env cfg sd base links i st acc).1] at hm
      exact hcr _ hm
    · rcases discoverLinks_pending_new env cfg sd base links i st acc _ hm with h | h
      · exact hpe _ h
      · exact h
  · intro hpre
    exact discoverLinks_inScope_mem env cfg sd base hsd links i st acc link hl hpre

/-- C1: the claim step grants the go-ahead iff the URL is not yet in the
crawled set and its derived filename is not in the startup snapshot;
granting marks the URL crawled in the same atomic transition; a second
claim of the same URL always fails; across a whole run the URLs for which
`_get_page` is invoked are pairwise distinct (no URL fetched twice); and
link discovery puts a URL in the returned delta only if it was in neither
the crawled nor the pending set, adding it to pending. -/
theorem claim_once (env : Env) (cfg : Config) (u : String) (st : CrawlState)
    (fuel gen : Nat) (frontier : List String) (st0 : CrawlState)
    (sd : Nat → Bool) (base : String) (links : List String) (i : Nat)
    (acc : List String) :
    ((claimUrl cfg u st).1 = true ↔
      u ∉ st.crawled_urls ∧ sanitizeStr u ∉ cfg.existing_files) ∧
    ((claimUrl cfg u st).1 = true → u ∈ (claimUrl cfg u st).2.crawled_urls) ∧
    (claimUrl cfg u ((claimUrl cfg u st).2)).1 = false ∧
    ((crawlLoop env cfg fuel gen frontier st0).2.map Prod.fst).Nodup ∧
    (∀ a ∈ (discoverLinks env cfg sd base links i st acc).2, a ∉ acc →
      a ∉ st.crawled_urls ∧ a ∉ st.pending_urls ∧
        a ∈ (discoverLinks env cfg sd base links i st acc).1.pending_urls) := by
  refine ⟨claimUrl_true_iff cfg u st, ?_, claimUrl_again_false cfg u st,
    (crawlLoop_calls env cfg fuel gen frontier st0).2.1, ?_⟩
  · intro h
    rw [claimUrl_true_state cfg u st h]
    exact List.mem_cons_self _ _
  · intro a ha hacc
    rcases discoverLinks_delta env cfg sd base links i st acc a ha with h | ⟨hc1, hc2, _, hc4⟩
    · exact absurd h hacc
    · exact ⟨hc1, hc2, hc4⟩

/-- C7: when the start URL's derived filename is already in the startup
snapshot of the output directory (as after a completed prior identical
run), the whole re-run issues zero GETs and leaves the state exactly as
initialized — every URL is skipped at the claim step against the
snapshot, which is compared by filename, not content. -/
theorem rerun_noop (env : Env) (cfg : Config) (proxies : List String) (fuel : Nat)
    (h : sanitizeStr cfg.start_url ∈ cfg.existing_files) :
    (runCrawler env cfg proxies fuel).2 = [] ∧
    (runCrawler env cfg proxies fuel).1 = initialState proxies := by
  unfold runCrawler
  cases fuel with
  | zero => exact ⟨rfl, rfl⟩
  | succ f =>
    by_cases hsd : env.sdGen 0 = true
    · rw [crawlLoop_stopped env cfg (f + 1) 0 [cfg.start_url] (initialState proxies)
        (by simp [hsd])]
      exact ⟨rfl, rfl⟩
    · have hsd' : env.sdGen 0 = false := by simpa using hsd
      have hstop : (([cfg.start_url] : List String).isEmpty || env.sdGen 0) = false := by
        simp [hsd']
      have hpu : processUrl env cfg (env.obs 0 cfg.start_url) cfg.start_url
          (initialState proxies) = (initialState proxies, [], []) := by
        by_cases hs : (env.obs 0 cfg.start_url).atStart = true
        · exact processUrl_atStart _ _ _ _ _ hs
        · apply processUrl_notClaimed _ _ _ _ _ (by simpa using hs)
          unfold claimUrl
          rw [if_pos (Or.inr h)]
      have hb : processBatch env cfg 0 [cfg.start_url] (initialState proxies) =
          (initialState proxies, [], []) := by
        rw [processBatch_step, hpu]
        rfl
      rw [crawlLoop_step env cfg f 0 [cfg.start_url] (initialState proxies) hstop, hb]
      constructor <;>
        simp [crawlLoop_stopped env cfg f 1 [] (initialState proxies) (by simp)]

/-- Configuration whose startup snapshot already holds the start URL's
derived filename. -/
def w7Cfg : Config := ⟨"http://a/", [sanitizeStr "http://a/"], 1⟩

/-- C7 witness: the idempotent re-run at a concrete input. -/
theorem rerun_noop_witness :
    (runCrawler demoEnv w7Cfg [] 5).2 = [] ∧
    (runCrawler demoEnv w7Cfg [] 5).1 = initialState [] :=
  rerun_noop demoEnv w7Cfg [] 5 (List.mem_singleton.mpr rfl)
